import Mathlib

/-!
Verification development for the `texasholdem` repository.

The Python sources (`card.py`, `hand_strength.py`, `probability.py`,
`player.py`, `game.py`, `gto_strategy.py`, `gto_cfr.py`, `gto_selfplay.py`)
are embedded shallowly: pure functions become Lean functions, the mutable
objects become explicit state records, Python `int` becomes `Int` (or `Nat`
where the source value is manifestly a count), Python `float` is modelled
as the exact rational `ℚ`, and Python `dict` becomes an association list
with first-match lookup and in-place update, matching insertion-order
semantics where the source depends on it.
-/

/-! ### card.py -/

/-- The four suits `'s' 'h' 'd' 'c'` of `SUITS_MAP`. -/
inductive Suit
  | s
  | h
  | d
  | c
deriving DecidableEq

/-- A card, as the class `Card`: a suit and `rank_int` (valid ranks are 2–14;
the constructor's validation is expressed by hypotheses where needed). -/
structure Card where
  suit : Suit
  rank_int : Nat
deriving DecidableEq

/-- `Card.__eq__`: equality compares `rank_int` only, ignoring the suit. -/
def cardEq (a b : Card) : Bool :=
  a.rank_int == b.rank_int

/-- `Card.__lt__`: ordering compares `rank_int` only. -/
def cardLt (a b : Card) : Bool :=
  a.rank_int < b.rank_int

/-- Index of a suit in `SUITS_MAP` order, used to model the tuple hash. -/
def suitIdx : Suit → Nat
  | .s => 0
  | .h => 1
  | .d => 2
  | .c => 3

/-- `Card.__hash__` returns `hash((self.suit, self.rank_int))`: a hash of the
pair of suit and rank.  CPython's tuple hash separates the distinct
`(suit, rank_int)` pairs arising from valid cards (4 suit strings with
distinct hashes, ranks 2–14), so it is modelled as an injective pairing of
the suit index with the rank; what matters for the claims is that the hash
depends on the suit as well as the rank. -/
def cardHash (c : Card) : Nat :=
  15 * suitIdx c.suit + c.rank_int

/-- Suits in `SUITS_MAP` insertion order. -/
def SUITS_LIST : List Suit := [.s, .h, .d, .c]

/-- Ranks in `RANKS_MAP` insertion order (14 down to 2). -/
def RANKS_LIST : List Nat := [14, 13, 12, 11, 10, 9, 8, 7, 6, 5, 4, 3, 2]

/-- `create_deck`: one card per suit and rank, suits outer, ranks inner. -/
def create_deck : List Card :=
  SUITS_LIST.foldr (fun su acc => (RANKS_LIST.map (fun r => ⟨su, r⟩)) ++ acc) []

/-- The class `Hand`: exactly two hole cards. -/
structure Hand where
  cards : Card × Card

/-- The class `Board`: three optional slots, each unset (`None`) or set. -/
structure Board where
  flops : Option (Card × Card × Card) := none
  turn : Option Card := none
  river : Option Card := none

/-- The community cards in the order `evaluate_hand` assembles them:
flops (if set), then turn, then river. -/
def Board.boardCards (b : Board) : List Card :=
  (match b.flops with
   | some (c1, c2, c3) => [c1, c2, c3]
   | none => []) ++
  (match b.turn with
   | some c => [c]
   | none => []) ++
  (match b.river with
   | some c => [c]
   | none => [])

/-! ### hand_strength.py -/

/-- `HAND_RANK_MAP` (the default branch is never reached: `EvaluatedHand`
is only constructed with the ten listed literals). -/
def HAND_RANK_MAP : String → Nat
  | "HIGH_CARD" => 0
  | "ONE_PAIR" => 1
  | "TWO_PAIR" => 2
  | "THREE_OF_A_KIND" => 3
  | "STRAIGHT" => 4
  | "FLUSH" => 5
  | "FULL_HOUSE" => 6
  | "FOUR_OF_A_KIND" => 7
  | "STRAIGHT_FLUSH" => 8
  | "ROYAL_FLUSH" => 9
  | _ => 0

/-- The class `EvaluatedHand` (its derived `hand_type_rank` and `value`
fields are the functions `hand_type_rank` and `calcValue` below). -/
structure EvaluatedHand where
  hand_type : String
  primary_rank : Nat := 0
  secondary_rank : Nat := 0
  kicker_ranks : List Nat := []
deriving DecidableEq

/-- `self.hand_type_rank = HAND_RANK_MAP[hand_type]`. -/
def hand_type_rank (e : EvaluatedHand) : Nat :=
  HAND_RANK_MAP e.hand_type

/-- The kicker slots of `_calculate_value`: exactly 4 values, position `i`
holding `kicker_ranks[i]` when it exists and `0` otherwise. -/
def padKickers (ks : List Nat) : List Nat :=
  (List.range 4).map (fun i => ks.getD i 0)

/-- The accumulation loop of `_calculate_value`: add `comp * 15 ** i` for
each component, `i` counting up from the given exponent. -/
def base15 : List Nat → Nat → Nat
  | [], _ => 0
  | comp :: rest, i => comp * 15 ^ i + base15 rest (i + 1)

/-- `EvaluatedHand._calculate_value`: the components
`[hand_type_rank, primary, secondary, kicker slots]` combined in base 15,
iterating the reversed component list from exponent 0. -/
def calcValue (e : EvaluatedHand) : Nat :=
  let comps := [hand_type_rank e, e.primary_rank, e.secondary_rank] ++ padKickers e.kicker_ranks
  base15 comps.reverse 0

/-- Insert into a descending-sorted list of naturals. -/
def insertDescNat (x : Nat) : List Nat → List Nat
  | [] => [x]
  | y :: ys => if x ≤ y then y :: insertDescNat x ys else x :: y :: ys

/-- `sorted(l, reverse=True)` on naturals. -/
def sortDescNat (l : List Nat) : List Nat :=
  l.foldr insertDescNat []

/-- The rank multiset of a card list (`card.rank_int for card in ALL_CARDS`). -/
def rankList (cards : List Card) : List Nat :=
  cards.map (·.rank_int)

/-- `INT_COUNTER[r]`: how many cards have rank `r`. -/
def rankCount (cards : List Card) (r : Nat) : Nat :=
  (cards.filter (fun c => c.rank_int == r)).length

/-- `SUIT_COUNTER[s]`: how many cards have suit `s`. -/
def suitCount (cards : List Card) (su : Suit) : Nat :=
  (cards.filter (fun c => c.suit == su)).length

/-- The distinct ranks present (`INT_COUNTER.keys()`), in first-occurrence
order; every use in the source feeds them through `max` or `sorted`. -/
def uniqueRanks (cards : List Card) : List Nat :=
  (rankList cards).dedup

/-- `max` over a list of naturals, `none` when empty. -/
def listMaxNat : List Nat → Option Nat
  | [] => none
  | x :: xs =>
    match listMaxNat xs with
    | none => some x
    | some m => some (max x m)

/-- `is_pair`: the greatest rank occurring exactly twice. -/
def is_pair (cards : List Card) : Option Nat :=
  listMaxNat ((uniqueRanks cards).filter (fun r => rankCount cards r == 2))

/-- `is_two_pair`: the top two ranks occurring exactly twice. -/
def is_two_pair (cards : List Card) : Option (Nat × Nat) :=
  let pairs := (uniqueRanks cards).filter (fun r => rankCount cards r == 2)
  if pairs.length ≥ 2 then
    match sortDescNat pairs with
    | a :: b :: _ => some (a, b)
    | _ => none
  else none

/-- `is_three_of_a_kind`: the greatest rank occurring exactly three times. -/
def is_three_of_a_kind (cards : List Card) : Option Nat :=
  listMaxNat ((uniqueRanks cards).filter (fun r => rankCount cards r == 3))

/-- `is_four_of_a_kind`: the greatest rank occurring exactly four times. -/
def is_four_of_a_kind (cards : List Card) : Option Nat :=
  listMaxNat ((uniqueRanks cards).filter (fun r => rankCount cards r == 4))

/-- The window scan shared by `is_straight` and `is_straight_flush`:
on a descending list, return the first element that exceeds the element
four positions later by exactly 4. -/
def straightScan : List Nat → Option Nat
  | a :: rest =>
    match rest with
    | _ :: _ :: _ :: e :: _ =>
      if (a : Int) - (e : Int) == 4 then some a else straightScan rest
    | _ => none
  | [] => none

/-- Appending the low Ace: `if 14 in unique_ranks: unique_ranks.append(1)`. -/
def withWheel (l : List Nat) : List Nat :=
  if 14 ∈ l then l ++ [1] else l

/-- `is_straight`: `None` with fewer than five distinct ranks, else scan the
descending distinct ranks (with the wheel Ace appended) for a straight. -/
def is_straight (cards : List Card) : Option Nat :=
  if (uniqueRanks cards).length < 5 then none
  else straightScan (withWheel (sortDescNat (uniqueRanks cards)))

/-- `is_flush`: the first suit (in first-occurrence order) with at least five
cards; if found, the top five ranks of that suit, descending. -/
def is_flush (cards : List Card) : Option (List Nat) :=
  match cards.find? (fun c => 5 ≤ suitCount cards c.suit) with
  | some c =>
    some ((sortDescNat (rankList (cards.filter (fun c2 => c2.suit == c.suit)))).take 5)
  | none => none

/-- `is_full_house`: a triple plus the greatest remaining rank with count ≥ 2. -/
def is_full_house (cards : List Card) : Option (Nat × Nat) :=
  match is_three_of_a_kind cards with
  | some three =>
    match listMaxNat ((uniqueRanks cards).filter
        (fun r => decide (r ≠ three) && decide (2 ≤ rankCount cards r))) with
    | some p => some (three, p)
    | none => none
  | none => none

/-- `is_straight_flush`: run the straight scan over the distinct ranks of the
flush result (the top five ranks of the flush suit), wheel Ace included. -/
def is_straight_flush (cards : List Card) : Option Nat :=
  match is_flush cards with
  | some flushRanks => straightScan (withWheel (sortDescNat flushRanks.dedup))
  | none => none

/-- `is_royal_flush`: a straight flush whose high card is the Ace. -/
def is_royal_flush (cards : List Card) : Option Nat :=
  match is_straight_flush cards with
  | some 14 => some 14
  | _ => none

/-- The priority cascade of `evaluate_hand` over the combined card list. -/
def evalCards (cards : List Card) : EvaluatedHand :=
  match is_royal_flush cards with
  | some r => { hand_type := "ROYAL_FLUSH", primary_rank := r }
  | none =>
  match is_straight_flush cards with
  | some r => { hand_type := "STRAIGHT_FLUSH", primary_rank := r }
  | none =>
  match is_four_of_a_kind cards with
  | some r =>
    { hand_type := "FOUR_OF_A_KIND", primary_rank := r,
      kicker_ranks := (sortDescNat ((uniqueRanks cards).filter (fun x => x ≠ r))).take 1 }
  | none =>
  match is_full_house cards with
  | some (t, p) =>
    { hand_type := "FULL_HOUSE", primary_rank := t, secondary_rank := p }
  | none =>
  match is_flush cards with
  | some (r :: ks) => { hand_type := "FLUSH", primary_rank := r, kicker_ranks := ks }
  | some [] => { hand_type := "FLUSH" }
  | none =>
  match is_straight cards with
  | some r => { hand_type := "STRAIGHT", primary_rank := r }
  | none =>
  match is_three_of_a_kind cards with
  | some r =>
    { hand_type := "THREE_OF_A_KIND", primary_rank := r,
      kicker_ranks := (sortDescNat ((uniqueRanks cards).filter (fun x => x ≠ r))).take 2 }
  | none =>
  match is_two_pair cards with
  | some (a, b) =>
    { hand_type := "TWO_PAIR", primary_rank := a, secondary_rank := b,
      kicker_ranks := (sortDescNat ((uniqueRanks cards).filter (fun x => x ≠ a ∧ x ≠ b))).take 1 }
  | none =>
  match is_pair cards with
  | some r =>
    { hand_type := "ONE_PAIR", primary_rank := r,
      kicker_ranks := (sortDescNat ((uniqueRanks cards).filter (fun x => x ≠ r))).take 3 }
  | none =>
  match (sortDescNat (uniqueRanks cards)).take 5 with
  | p :: ks => { hand_type := "HIGH_CARD", primary_rank := p, kicker_ranks := ks }
  | [] => { hand_type := "HIGH_CARD" }

/-- `evaluate_hand`: evaluate the two hole cards together with the board. -/
def evaluate_hand (h : Hand) (b : Board) : EvaluatedHand :=
  evalCards (h.cards.1 :: h.cards.2 :: b.boardCards)

/-! ### probability.py -/

/-- The deck construction shared by `calculate_hand_distribution` and
`calculate_equity`:
`remaining_deck = [c for c in full_deck if c not in known_cards]`,
where list membership uses `Card.__eq__` (rank-only equality). -/
def remaining_deck (known_cards : List Card) : List Card :=
  create_deck.filter (fun c => !(known_cards.any (fun k => cardEq c k)))

/-! ### Python dicts

A Python `dict` is modelled as an association list in insertion order:
lookup takes the first matching key, assignment replaces the first
matching key in place or appends a fresh one at the end. -/

/-- `d.get(k, default)` (also `defaultdict` lookup). -/
def dGet {α : Type} (d : List (String × α)) (k : String) (dflt : α) : α :=
  match d.find? (fun e => e.1 == k) with
  | some e => e.2
  | none => dflt

/-- `d[k] = v`. -/
def dSet {α : Type} (d : List (String × α)) (k : String) (v : α) : List (String × α) :=
  match d with
  | [] => [(k, v)]
  | e :: rest => if e.1 == k then (k, v) :: rest else e :: dSet rest k v

/-! ### gto_strategy.py -/

/-- `_BET_STRAT`: the facing-no-bet heuristic table, by equity bucket.
Python float literals are modelled as exact rationals.  Buckets outside
0–7 (a `KeyError` in the source, never reached because
`get_equity_bucket` clamps to 0–7) give the empty row. -/
def BET_STRAT : Nat → List (String × ℚ)
  | 7 => [("raise", 82/100), ("check", 18/100)]
  | 6 => [("raise", 70/100), ("check", 30/100)]
  | 5 => [("raise", 50/100), ("check", 50/100)]
  | 4 => [("raise", 30/100), ("check", 70/100)]
  | 3 => [("raise", 18/100), ("check", 82/100)]
  | 2 => [("raise", 12/100), ("check", 88/100)]
  | 1 => [("raise", 6/100), ("check", 94/100)]
  | 0 => [("raise", 14/100), ("check", 86/100)]
  | _ => []

/-- `_CALL_STRAT`: the facing-a-bet heuristic table, by equity bucket. -/
def CALL_STRAT : Nat → List (String × ℚ)
  | 7 => [("raise", 72/100), ("call", 28/100), ("fold", 0)]
  | 6 => [("raise", 42/100), ("call", 55/100), ("fold", 3/100)]
  | 5 => [("raise", 14/100), ("call", 80/100), ("fold", 6/100)]
  | 4 => [("raise", 4/100), ("call", 66/100), ("fold", 30/100)]
  | 3 => [("raise", 0), ("call", 42/100), ("fold", 58/100)]
  | 2 => [("raise", 0), ("call", 18/100), ("fold", 82/100)]
  | 1 => [("raise", 0), ("call", 7/100), ("fold", 93/100)]
  | 0 => [("raise", 0), ("call", 4/100), ("fold", 96/100)]
  | _ => []

/-- `heuristic_strategy`: pick the table by whether `'call'` is legal,
restrict to the legal actions, and normalise (uniform fallback when the
restricted mass is zero). -/
def heuristic_strategy (eq_bucket : Nat) (valid_actions : List String) : List (String × ℚ) :=
  let facing_bet := valid_actions.contains "call"
  let base := if facing_bet then CALL_STRAT eq_bucket else BET_STRAT eq_bucket
  let filtered := valid_actions.foldl (fun d a => dSet d a (dGet base a 0)) []
  let total := (filtered.map (·.2)).sum
  if total == 0 then
    valid_actions.foldl (fun d a => dSet d a ((1 : ℚ) / (valid_actions.length : ℚ))) []
  else
    filtered.map (fun p => (p.1, p.2 / total))

/-! ### gto_cfr.py -/

/-- `SimpleMCCFR._LEARN_THRESHOLD`. -/
def LEARN_THRESHOLD : Int := 20

/-- The three accumulator maps of `SimpleMCCFR` (the same shapes serve as
the plain-dict snapshots passed around by `gto_selfplay.py`). -/
structure SimpleMCCFR where
  regret_sum : List (String × List (String × ℚ)) := []
  strategy_sum : List (String × List (String × ℚ)) := []
  visit_count : List (String × Int) := []
deriving DecidableEq

/-- `SimpleMCCFR.get_strategy`: bump the visit counter; below the learning
threshold fall back to the heuristic, otherwise regret-match on clipped
positive regrets (heuristic again when no regret is positive) and
accumulate the returned distribution into `strategy_sum`. -/
def get_strategy (m : SimpleMCCFR) (state_key : String) (valid_actions : List String)
    (eq_bucket : Nat) : SimpleMCCFR × List (String × ℚ) :=
  let visits := dGet m.visit_count state_key 0 + 1
  let m1 := { m with visit_count := dSet m.visit_count state_key visits }
  if visits < LEARN_THRESHOLD then
    (m1, heuristic_strategy eq_bucket valid_actions)
  else
    let regrets := dGet m1.regret_sum state_key []
    let positive := valid_actions.foldl (fun d a => dSet d a (max (dGet regrets a 0) 0)) []
    let total := (positive.map (·.2)).sum
    let strategy :=
      if total > 0 then valid_actions.foldl (fun d a => dSet d a (dGet positive a 0 / total)) []
      else heuristic_strategy eq_bucket valid_actions
    let inner := dGet m1.strategy_sum state_key []
    let inner' := valid_actions.foldl (fun d a => dSet d a (dGet d a 0 + dGet strategy a 0)) inner
    ({ m1 with strategy_sum := dSet m1.strategy_sum state_key inner' }, strategy)

/-! #### `SimpleMCCFR.load`

The file system is abstracted as the load input: `none` models a missing
file (`os.path.exists` false), `some none` a file whose contents
`json.load` rejects (`json.JSONDecodeError`, a `ValueError`), and
`some (some v)` a file parsing to the JSON value `v`.  Values are
modelled by `PyVal`; `float(v)` / `int(v)` raise a caught
`ValueError`/`TypeError` exactly on the non-numeric cases (string
payloads are modelled as non-numeric: the files written by `save` hold
JSON numbers in these positions), while `.items()` on a non-dict and
`data.get` on a non-dict raise `AttributeError`, which the source's
`except (json.JSONDecodeError, KeyError, TypeError, ValueError)` does
not catch. -/

/-- A parsed JSON value, as Python represents it. -/
inductive PyVal
  | num (q : ℚ)
  | str (s : String)
  | bool (b : Bool)
  | null
  | arr (items : List PyVal)
  | obj (fields : List (String × PyVal))

/-- `float(v)`: numbers and bools convert, everything else raises a
caught error. -/
def pyFloat : PyVal → Option ℚ
  | .num q => some q
  | .bool b => some (if b then 1 else 0)
  | _ => none

/-- `int(v)`: numbers truncate toward zero, bools convert, everything
else raises a caught error. -/
def pyInt : PyVal → Option Int
  | .num q => some (q.num.tdiv (q.den : Int))
  | .bool b => some (if b then 1 else 0)
  | _ => none

/-- How an exception escaping an extraction step relates to the
source's `except` clause. -/
inductive LoadErr
  | caught
  | uncaught

/-- The dict comprehension `{ak: float(av) for ak, av in v.items()}`:
all-or-nothing, failing with the first unconvertible value. -/
def convFloatDict : List (String × PyVal) → Except LoadErr (List (String × ℚ))
  | [] => .ok []
  | (k, v) :: rest =>
    match pyFloat v with
    | some q =>
      match convFloatDict rest with
      | .ok d => .ok ((k, q) :: d)
      | .error e => .error e
    | none => .error .caught

/-- `for k, v in data.get('regret_sum', {}).items(): self.regret_sum[k] = …`
(also used for `strategy_sum`): entry-by-entry assignment, stopping at the
first failing entry and keeping the assignments already made. -/
def loadFloatSection (acc : List (String × List (String × ℚ))) :
    List (String × PyVal) → List (String × List (String × ℚ)) × Option LoadErr
  | [] => (acc, none)
  | (k, v) :: rest =>
    match v with
    | .obj fields =>
      match convFloatDict fields with
      | .ok d => loadFloatSection (dSet acc k d) rest
      | .error e => (acc, some e)
    | _ => (acc, some .uncaught)

/-- `for k, v in data.get('visit_count', {}).items(): self.visit_count[k] = int(v)`. -/
def loadIntSection (acc : List (String × Int)) :
    List (String × PyVal) → List (String × Int) × Option LoadErr
  | [] => (acc, none)
  | (k, v) :: rest =>
    match pyInt v with
    | some i => loadIntSection (dSet acc k i) rest
    | none => (acc, some .caught)

/-- A section value produced by `data.get(key, {})`: iterating it with
`.items()` succeeds only on a dict. -/
def sectionFields (data : List (String × PyVal)) (key : String) :
    Except LoadErr (List (String × PyVal)) :=
  match dGet data key (.obj []) with
  | .obj fields => .ok fields
  | _ => .error .uncaught

/-- `SimpleMCCFR.load`: returns the engine state after the call together
with whether an exception escaped the method. -/
def cfrLoad (m : SimpleMCCFR) (file : Option (Option PyVal)) : SimpleMCCFR × Bool :=
  match file with
  | none => (m, false)
  | some none => (m, false)
  | some (some data) =>
    match data with
    | .obj fields =>
      let step1 :=
        match sectionFields fields "regret_sum" with
        | .ok entries =>
          match loadFloatSection m.regret_sum entries with
          | (acc, err) => ({ m with regret_sum := acc }, err)
        | .error e => (m, some e)
      match step1 with
      | (m1, some .caught) => (m1, false)
      | (m1, some .uncaught) => (m1, true)
      | (m1, none) =>
        let step2 :=
          match sectionFields fields "strategy_sum" with
          | .ok entries =>
            match loadFloatSection m1.strategy_sum entries with
            | (acc, err) => ({ m1 with strategy_sum := acc }, err)
          | .error e => (m1, some e)
        match step2 with
        | (m2, some .caught) => (m2, false)
        | (m2, some .uncaught) => (m2, true)
        | (m2, none) =>
          let step3 :=
            match sectionFields fields "visit_count" with
            | .ok entries =>
              match loadIntSection m2.visit_count entries with
              | (acc, err) => ({ m2 with visit_count := acc }, err)
            | .error e => (m2, some e)
          match step3 with
          | (m3, some .caught) => (m3, false)
          | (m3, some .uncaught) => (m3, true)
          | (m3, none) => (m3, false)
    | _ => (m, true)

/-! ### gto_selfplay.py -/

/-- `regret[state][action] += value` against a `defaultdict` accumulator. -/
def bumpNested (acc : List (String × List (String × ℚ))) (state action : String) (value : ℚ) :
    List (String × List (String × ℚ)) :=
  let inner := dGet acc state []
  dSet acc state (dSet inner action (dGet inner action 0 + value))

/-- The inner loop `for action, value in actions.items(): … += value`. -/
def addActions (acc : List (String × List (String × ℚ))) (state : String) :
    List (String × ℚ) → List (String × List (String × ℚ))
  | [] => acc
  | (action, value) :: rest => addActions (bumpNested acc state action value) state rest

/-- The outer loop `for state, actions in result[…].items()`. -/
def addNested (acc : List (String × List (String × ℚ))) :
    List (String × List (String × ℚ)) → List (String × List (String × ℚ))
  | [] => acc
  | (state, actions) :: rest => addNested (addActions acc state actions) rest

/-- `visits[state] += count`. -/
def addCounts (acc : List (String × Int)) : List (String × Int) → List (String × Int)
  | [] => acc
  | (state, count) :: rest => addCounts (dSet acc state (dGet acc state 0 + count)) rest

/-- The body of `_merge_cfr_data`'s `for result in results` loop: fold one
partial result into the accumulators. -/
def mergeStep (acc r : SimpleMCCFR) : SimpleMCCFR :=
  { regret_sum := addNested acc.regret_sum r.regret_sum,
    strategy_sum := addNested acc.strategy_sum r.strategy_sum,
    visit_count := addCounts acc.visit_count r.visit_count }

/-- `_merge_cfr_data`: fold every partial result into fresh `defaultdict`
accumulators, summing all three maps pointwise. -/
def merge_cfr_data (results : List SimpleMCCFR) : SimpleMCCFR :=
  results.foldl mergeStep {}

/-- Total mass an association list assigns to a key (for a true dict, the
entry's value; duplicate keys—impossible for parsed dicts—sum, matching
the `+=` accumulation). -/
def qSum : List (String × ℚ) → String → ℚ
  | [], _ => 0
  | (k, v) :: rest, a => (if k == a then v else 0) + qSum rest a

/-- Two-level lookup of the total mass at `(state, action)`. -/
def qSum2 : List (String × List (String × ℚ)) → String → String → ℚ
  | [], _, _ => 0
  | (k, inner) :: rest, s, a => (if k == s then qSum inner a else 0) + qSum2 rest s a

/-- Total count an integer association list assigns to a key. -/
def iSum : List (String × Int) → String → Int
  | [], _ => 0
  | (k, v) :: rest, a => (if k == a then v else 0) + iSum rest a

/-! ### player.py -/

/-- The seat lifecycle states of `Player.status`. -/
inductive PStatus
  | active
  | folded
  | allin
  | busted
deriving DecidableEq

/-- The chip-relevant state of the class `Player` (`name` and `hand` carry
no chips and are omitted; `round_bet` is the attribute `betting_round`
creates on every player). -/
structure Player where
  chips : Int
  current_bet : Int := 0
  round_bet : Int := 0
  status : PStatus := .active
deriving DecidableEq

/-- `Player.pay`: pay `min(amount, chips)`, moving it from the stack to
`current_bet`; a stack emptied by the payment flips the status to all-in.
Returns the updated player and `actual_pay`. -/
def Player.pay (p : Player) (amount : Int) : Player × Int :=
  let actual_pay := min amount p.chips
  let chips' := p.chips - actual_pay
  ({ p with
      chips := chips',
      current_bet := p.current_bet + actual_pay,
      status := if chips' == 0 then .allin else p.status },
   actual_pay)

/-! ### game.py — betting

The class `Game` is embedded with the fields the betting rounds read and
write; the board is tracked only through the emptiness test
`len(self.board.get_all_cards()) == 0` that `betting_round` performs, and
the deck and dealt hands (which never touch chips) are omitted. -/

structure Game where
  players : List Player
  pot : Int := 0
  dealer_pos : Nat := 0
  small_blind : Int := 10
  big_blind : Int := 20
  current_bet : Int := 0
  board_empty : Bool := true
deriving DecidableEq

/-- Out-of-range indexing placeholder (never reached: the betting loop
keeps its index below the table size). -/
def dummyPlayer : Player := { chips := 0, status := .busted }

/-- `self.players[i].pay(amount)` followed by storing the player back. -/
def Game.payAt (g : Game) (i : Nat) (amount : Int) : Game × Int :=
  match g.players.get? i with
  | some p =>
    match p.pay amount with
    | (p', a) => ({ g with players := g.players.set i p' }, a)
  | none => (g, 0)

/-- `len(get_contesting_players())`: seats neither folded nor busted. -/
def contestingCount (g : Game) : Nat :=
  (g.players.filter (fun p => p.status ≠ .folded ∧ p.status ≠ .busted)).length

/-- The number of seats with status `'active'`. -/
def activeCount (g : Game) : Nat :=
  (g.players.filter (fun p => p.status = .active)).length

/-- `Game.start_round`, from the state reset through the blind posting
(the shuffled deal that follows moves no chips).  The busted-skipping
seat searches are abstracted as the parameters `sb_pos` and `bb_pos`
(taken modulo the table size, as the source's index arithmetic
guarantees), and the too-few-players early return is outside the claims
settled here. -/
def start_round (g : Game) (sb_pos bb_pos : Nat) : Game :=
  let g0 : Game :=
    { g with
        pot := 0, current_bet := 0, board_empty := true,
        players := g.players.map (fun p =>
          { p with
              status := if p.chips > 0 then .active else .busted,
              current_bet := 0 }) }
  let n := g0.players.length
  match g0.payAt (sb_pos % n) g0.small_blind with
  | (g1, sb_amount) =>
    match g1.payAt (bb_pos % n) g0.big_blind with
    | (g2, bb_amount) =>
      { g2 with pot := g2.pot + (sb_amount + bb_amount), current_bet := g0.big_blind }

/-- The state threaded through the `while True` loop of `betting_round`. -/
structure BetSt where
  g : Game
  round_max_bet : Int
  last_raiser : Int
  current_idx : Nat
  start_idx : Nat
deriving DecidableEq

/-- A decision provider: given the loop state and the legal action list
(a superset of the information in the source's `game_state` snapshot),
produce the `(action, amount)` reply of `get_action`/`decide_action`. -/
def Agent : Type := BetSt → List String → String × Int

/-- The legal action list `betting_round` assembles for an active seat. -/
def valid_actions_of (p : Player) (call_amount : Int) : List String :=
  ["fold"] ++ (if call_amount == 0 then ["check"] else ["call"]) ++
    (if p.chips > call_amount then ["raise"] else [])

/-- One outcome of a loop iteration: a `return`/`break` with the final
result of `betting_round`, or the next loop state. -/
inductive BetStep
  | ret (result : Bool) (g : Game)
  | cont (st : BetSt)
deriving DecidableEq

/-- The action phase of one loop iteration of `betting_round`: the seat at
`current_idx` acts if it is active.  Returns the updated game together
with the updated `round_max_bet` and `last_raiser`. -/
def bact (agent : Agent) (st : BetSt) : Game × Int × Int :=
  let p := (st.g.players.get? st.current_idx).getD dummyPlayer
  if p.status = .active then
    let call_amount := st.round_max_bet - p.round_bet
    let va := valid_actions_of p call_amount
    match agent st va with
    | (action, amount) =>
      if action = "fold" then
        ({ st.g with players := st.g.players.set st.current_idx { p with status := .folded } },
         st.round_max_bet, st.last_raiser)
      else if action = "call" ∨ action = "check" then
        match p.pay call_amount with
        | (p', pay_amt) =>
          ({ st.g with
              players := st.g.players.set st.current_idx
                { p' with round_bet := p'.round_bet + pay_amt },
              pot := st.g.pot + pay_amt },
           st.round_max_bet, st.last_raiser)
      else if action = "raise" then
        let actual_raise_to := max amount (st.round_max_bet + st.g.big_blind)
        match p.pay (actual_raise_to - p.round_bet) with
        | (p', pay_amt) =>
          let p2 := { p' with round_bet := p'.round_bet + pay_amt }
          ({ st.g with
              players := st.g.players.set st.current_idx p2,
              pot := st.g.pot + pay_amt },
           p2.round_bet, (st.current_idx : Int))
      else (st.g, st.round_max_bet, st.last_raiser)
  else (st.g, st.round_max_bet, st.last_raiser)

/-- One iteration of the `while True` loop of `betting_round`: let the
current seat act if it is active, then test the loop's exit conditions. -/
def bstep (agent : Agent) (st : BetSt) : BetStep :=
  let n := st.g.players.length
  match bact agent st with
  | (g1, rmb, lr) =>
    if contestingCount g1 == 1 then .ret false g1
    else
      let next_idx := (st.current_idx + 1) % n
      if activeCount g1 == 0 then .ret true g1
      else if (next_idx : Int) == lr then .ret true g1
      else if lr == -1 ∧ next_idx == st.start_idx then
        if g1.current_bet > 0 ∧ g1.board_empty then
          if st.current_idx == (g1.dealer_pos + 2) % n then .ret true g1
          else .cont { st with g := g1, round_max_bet := rmb, last_raiser := lr,
                               current_idx := next_idx }
        else .ret true g1
      else .cont { st with g := g1, round_max_bet := rmb, last_raiser := lr,
                           current_idx := next_idx }

/-- The loop of `betting_round`, with explicit fuel (`none` = fuel ran
out; the source's loop has no such case, and the termination theorem
shows sufficient fuel always exists). -/
def bloop (agent : Agent) : Nat → BetSt → Option (Bool × Game)
  | 0, _ => none
  | fuel + 1, st =>
    match bstep agent st with
    | .ret b g => some (b, g)
    | .cont st' => bloop agent fuel st'

/-- The initialisation at the top of `betting_round`: zero every seat's
`round_bet`, and preflop (a posted bet with an empty board) carry the
blinds forward and start the running maximum at the big blind. -/
def betting_round_init (g : Game) : Game × Int :=
  if g.current_bet > 0 ∧ g.board_empty then
    ({ g with players := g.players.map (fun p => { p with round_bet := p.current_bet }) },
     g.big_blind)
  else
    ({ g with players := g.players.map (fun p => { p with round_bet := 0 }) }, 0)

/-- `Game.betting_round`: initialise, take the too-few-active early
return, and otherwise run the loop. -/
def betting_round (agent : Agent) (g : Game) (start_idx : Nat) (fuel : Nat) :
    Option (Bool × Game) :=
  match betting_round_init g with
  | (g1, rmb) =>
    if activeCount g1 < 2 ∧ rmb == 0 then some (true, g1)
    else
      bloop agent fuel
        { g := g1, round_max_bet := rmb, last_raiser := -1,
          current_idx := start_idx, start_idx := start_idx }

/-! ### game.py — showdown

`Game.showdown` is embedded over three parallel per-seat lists in table
order: the evaluated hand value of each contesting seat holding a hand
(`none` for the rest), the contribution ledger `{p: p.current_bet}`, and
the chip stacks that `receive_winnings` credits. -/

/-- Stable insertion for the descending sort
`evaluated_hands.sort(key=…, reverse=True)` (Python's sort is stable):
an entry is placed after every earlier entry of strictly greater value
and before equal-valued ones it preceded. -/
def insEvDesc (x : Nat × Nat) : List (Nat × Nat) → List (Nat × Nat)
  | [] => [x]
  | y :: ys => if x.2 < y.2 then y :: insEvDesc x ys else x :: y :: ys

/-- Stable descending sort of `(seat index, hand value)` entries. -/
def sortEvDesc (l : List (Nat × Nat)) : List (Nat × Nat) :=
  l.foldr insEvDesc []

/-- The unsorted `evaluated_hands` construction: walk the seats in table
order (`i` the index of the first seat), recording `(seat, hand value)`
for every contesting seat holding a hand. -/
def sdTableEntries : List (Option Nat) → Nat → List (Nat × Nat)
  | [], _ => []
  | some v :: rest, i => (i, v) :: sdTableEntries rest (i + 1)
  | none :: rest, i => sdTableEntries rest (i + 1)

/-- The `evaluated_hands` list: contesting seats with a hand, in table
order, then stably sorted by hand value, descending. -/
def sdEvaluated (values : List (Option Nat)) : List (Nat × Nat) :=
  sortEvDesc (sdTableEntries values 0)

/-- The winner-collecting scan over the sorted `evaluated_hands`: the
first entry with remaining contribution fixes `best_val`, and every
entry matching it (with remaining contribution) is collected in order. -/
def sdScan (contribs : List Int) (best : Int) : List (Nat × Nat) → List Nat
  | [] => []
  | (i, v) :: rest =>
    if contribs.getD i 0 > 0 then
      if best == -1 then i :: sdScan contribs (v : Int) rest
      else if (v : Int) == best then i :: sdScan contribs best rest
      else sdScan contribs best rest
    else sdScan contribs best rest

/-- One iteration of the side-pot loop: find the layer's winners, cap at
their least remaining contribution, sweep `min(contribution, cap)` from
every seat into the sub-pot, split it by floor division with the
remainder to the first winner.  `none` models the defensive `break` when
no winner remains. -/
def sdStep (ev : List (Nat × Nat)) (contribs chips : List Int) (pot : Int) :
    Option (List Int × List Int × Int) :=
  match sdScan contribs (-1) ev with
  | [] => none
  | w :: ws =>
    let winners := w :: ws
    let max_per_winner := (ws.map (fun i => contribs.getD i 0)).foldl min (contribs.getD w 0)
    let total_winnable := (contribs.map (fun c => min c max_per_winner)).sum
    let contribs' := contribs.map (fun c => c - min c max_per_winner)
    let pot' := pot - total_winnable
    let share := total_winnable.fdiv (winners.length : Int)
    let chips1 := winners.foldl (fun ch i => ch.set i (ch.getD i 0 + share)) chips
    let rem := total_winnable.fmod (winners.length : Int)
    let chips2 := if rem ≠ 0 then chips1.set w (chips1.getD w 0 + rem) else chips1
    some (contribs', chips2, pot')

/-- The `while self.pot > 0` loop of `showdown`, with explicit fuel
(ample fuel is supplied by the caller below). -/
def sdLoop (ev : List (Nat × Nat)) :
    Nat → List Int → List Int → Int → List Int × List Int × Int
  | 0, contribs, chips, pot => (contribs, chips, pot)
  | fuel + 1, contribs, chips, pot =>
    if pot > 0 then
      match sdStep ev contribs chips pot with
      | some (contribs', chips', pot') => sdLoop ev fuel contribs' chips' pot'
      | none => (contribs, chips, pot)
    else (contribs, chips, pot)

/-- `Game.showdown`'s distribution phase: sort the evaluated hands once,
then run the side-pot loop (the fuel `pot.toNat + 1` is enough for the
loop to reach its own exit, as proved below). -/
def showdown (values : List (Option Nat)) (contribs chips : List Int) (pot : Int) :
    List Int × List Int × Int :=
  sdLoop (sdEvaluated values) (pot.toNat + 1) contribs chips pot

/-! ### Predicates, invariants and measures used by the development -/

/-- A well-formed (parsed or constructed) dict: no duplicate keys. -/

def NodupKeys {α : Type} (d : List (String × α)) : Prop :=
  (d.map Prod.fst).Nodup

/-- A well-formed two-level store: no duplicate keys at either level. -/

def NodupKeys2 (d : List (String × List (String × ℚ))) : Prop :=
  NodupKeys d ∧ ∀ e ∈ d, NodupKeys e.2

/-- A well-formed `SimpleMCCFR` snapshot (what parsed JSON dicts and the
engine's own dicts always are). -/

def StoreWF (m : SimpleMCCFR) : Prop :=
  NodupKeys2 m.regret_sum ∧ NodupKeys2 m.strategy_sum ∧ NodupKeys m.visit_count

/-- Descending comparison on hand values used by the showdown sort. -/

def geVal (x y : Nat × Nat) : Prop := y.2 ≤ x.2

/-- Eligibility in the winner scan: positive remaining contribution. -/

def sdEligB (contribs : List Int) (p : Nat × Nat) : Bool :=
  decide (contribs.getD p.1 0 > 0)

/-- The chip-conservation invariant of a round: the pot equals the summed
round contributions, which equal the chips removed from the stacks since
round start (`total` the stacks' total at round start). -/

def ledgerInv (total : Int) (g : Game) : Prop :=
  g.pot = (g.players.map (fun p => p.current_bet)).sum ∧
  (g.players.map (fun p => p.chips)).sum + g.pot = total

/-! ### Claim C10: termination of the betting loop

The measure: active seats (folds and all-ins only ever remove one), then
the headroom left between `round_max_bet` and the table's largest
reachable bet (a full raise consumes at least one big blind of it), then
the circular distance from the seat about to act to the seat at which the
loop exits.  `M` bounds every seat's `round_bet + chips` (a constant of
every action, since `pay` moves chips between the two). -/

def cdist (n stop next : Nat) : Nat :=
  if next ≤ stop then stop - next else stop + n - next

def stopIdx (st : BetSt) : Nat :=
  if 0 ≤ st.last_raiser then st.last_raiser.toNat else st.start_idx

def bmeasure (M : Int) (st : BetSt) : Nat :=
  activeCount st.g * (((M + st.g.big_blind).toNat + 1) * st.g.players.length) +
    (M + st.g.big_blind - st.round_max_bet).toNat * st.g.players.length +
    cdist st.g.players.length (stopIdx st)
      ((st.current_idx + 1) % st.g.players.length)

/-- The decision provider only ever answers with a legal action (as the
source's `get_action`/`decide_action` do, choosing from `valid_actions`). -/

def LegalAgent (agent : Agent) : Prop :=
  ∀ (st : BetSt) (p : Player) (ca : Int),
    (agent st (valid_actions_of p ca)).1 ∈ valid_actions_of p ca

/-- The loop invariant for termination: indices in range, a well-formed
`last_raiser`, a non-negative running maximum bounded by the table's
reachable bets, and per-seat coherence (non-negative stacks bounded by
`M` jointly with the round bet; an active seat is never behind the
maximum by more than its stack allows and still holds at least a chip). -/

def BetInv (M : Int) (st : BetSt) : Prop :=
  0 < st.g.players.length ∧
  st.current_idx < st.g.players.length ∧
  st.start_idx < st.g.players.length ∧
  (st.last_raiser = -1 ∨
    (0 ≤ st.last_raiser ∧ st.last_raiser < (st.g.players.length : Int))) ∧
  0 ≤ st.round_max_bet ∧
  st.round_max_bet ≤ M + st.g.big_blind ∧
  1 ≤ st.g.big_blind ∧
  (∀ p ∈ st.g.players, 0 ≤ p.chips ∧ p.round_bet + p.chips ≤ M ∧
    (p.status = .active → p.round_bet ≤ st.round_max_bet ∧ 1 ≤ p.chips))

/-- Preflop the loop is entered at the seat after the big blind
(`dealer_pos + 3`), as `start_round`/`play_round` arrange; this is what
makes the big-blind-option break fire within one circuit. -/

def PreHyp (st : BetSt) : Prop :=
  (st.g.current_bet > 0 ∧ st.g.board_empty = true) →
    st.start_idx = (st.g.dealer_pos + 3) % st.g.players.length

/-- The entry conditions of `betting_round` under which it terminates:
at least one seat, in-range entry seat, a big blind of at least a chip,
non-negative stacks bounded by `M`, and active seats holding a chip.
The clauses about `current_bet` apply only to the preflop entry (a
posted bet on an empty board) — the only case in which `betting_round`
carries `current_bet` into the round bets; on later streets the round
bets are reset to zero and `current_bet` plays no role, so the
accumulated cross-street total is unconstrained there. -/

def StartHyp (M : Int) (g : Game) (start_idx : Nat) : Prop :=
  0 < g.players.length ∧ start_idx < g.players.length ∧
  1 ≤ g.big_blind ∧ 0 ≤ M ∧
  ((g.current_bet > 0 ∧ g.board_empty = true) →
    start_idx = (g.dealer_pos + 3) % g.players.length) ∧
  ∀ p ∈ g.players, 0 ≤ p.chips ∧ p.chips ≤ M ∧
    (p.status = .active → 1 ≤ p.chips) ∧
    ((g.current_bet > 0 ∧ g.board_empty = true) →
      p.current_bet + p.chips ≤ M ∧
      (p.status = .active → p.current_bet ≤ g.big_blind))

/-- The loop state `betting_round` enters its `while True` loop with. -/

def initSt (g : Game) (start_idx : Nat) : BetSt :=
  { g := (betting_round_init g).1, round_max_bet := (betting_round_init g).2,
    last_raiser := -1, current_idx := start_idx, start_idx := start_idx }

/-- Sufficient fuel for `betting_round` (the loop runs fewer iterations
than this). -/

def betting_fuel (M : Int) (g : Game) (start_idx : Nat) : Nat :=
  bmeasure M (initSt g start_idx) + 1

/-! ## Theorems -/

/-! ### Helper lemmas -/

theorem getD_le_of_forall_le {l : List Nat} {b : Nat} (h : ∀ k ∈ l, k ≤ b) (i : Nat) :
    l.getD i 0 ≤ b := by
  induction l generalizing i with
  | nil => simp [List.getD]
  | cons x xs ih =>
    cases i with
    | zero => simpa using h x (by simp)
    | succ j =>
      simp only [List.getD_cons_succ]
      exact ih (fun k hk => h k (by simp [hk])) j

/-- Closed form of `_calculate_value` as the base-15 mixed-radix encoding
with the category most significant. -/
theorem calcValue_closed_form (e : EvaluatedHand) :
    calcValue e =
      hand_type_rank e * 15 ^ 6 + e.primary_rank * 15 ^ 5 + e.secondary_rank * 15 ^ 4 +
      e.kicker_ranks.getD 0 0 * 15 ^ 3 + e.kicker_ranks.getD 1 0 * 15 ^ 2 +
      e.kicker_ranks.getD 2 0 * 15 ^ 1 + e.kicker_ranks.getD 3 0 * 15 ^ 0 := by
  simp [calcValue, padKickers, List.range_succ, base15]
  ring

/-! ### Claim C5 -/

/-- Claim C5: for every `EvaluatedHand` whose primary, secondary and kicker
ranks lie in 0–14, the scalar `value` is the base-15 mixed-radix encoding
with the category most significant, and consequently any hand of a higher
category has a strictly greater scalar value than any hand of a lower
category, whatever their primary, secondary and kicker ranks. -/
theorem C5_value_encoding_and_category_dominance (e1 e2 : EvaluatedHand)
    (h1 : e1.primary_rank ≤ 14 ∧ e1.secondary_rank ≤ 14 ∧ ∀ k ∈ e1.kicker_ranks, k ≤ 14)
    (h2 : e2.primary_rank ≤ 14 ∧ e2.secondary_rank ≤ 14 ∧ ∀ k ∈ e2.kicker_ranks, k ≤ 14)
    (hcat : hand_type_rank e2 < hand_type_rank e1) :
    (calcValue e1 =
      hand_type_rank e1 * 15 ^ 6 + e1.primary_rank * 15 ^ 5 + e1.secondary_rank * 15 ^ 4 +
      e1.kicker_ranks.getD 0 0 * 15 ^ 3 + e1.kicker_ranks.getD 1 0 * 15 ^ 2 +
      e1.kicker_ranks.getD 2 0 * 15 ^ 1 + e1.kicker_ranks.getD 3 0 * 15 ^ 0) ∧
    calcValue e2 < calcValue e1 := by
  obtain ⟨hp1, hs1, hk1⟩ := h1
  obtain ⟨hp2, hs2, hk2⟩ := h2
  refine ⟨calcValue_closed_form e1, ?_⟩
  rw [calcValue_closed_form e1, calcValue_closed_form e2]
  have b10 := getD_le_of_forall_le hk1 0
  have b11 := getD_le_of_forall_le hk1 1
  have b12 := getD_le_of_forall_le hk1 2
  have b13 := getD_le_of_forall_le hk1 3
  have b20 := getD_le_of_forall_le hk2 0
  have b21 := getD_le_of_forall_le hk2 1
  have b22 := getD_le_of_forall_le hk2 2
  have b23 := getD_le_of_forall_le hk2 3
  norm_num at b10 b11 b12 b13 b20 b21 b22 b23 ⊢
  omega

/-- Witness for C5 at a concrete pair: any flush beats any straight. -/
theorem C5_witness :
    calcValue { hand_type := "STRAIGHT", primary_rank := 14 } <
      calcValue { hand_type := "FLUSH", primary_rank := 7, kicker_ranks := [5, 4, 3, 2] } :=
  (C5_value_encoding_and_category_dominance
    { hand_type := "FLUSH", primary_rank := 7, kicker_ranks := [5, 4, 3, 2] }
    { hand_type := "STRAIGHT", primary_rank := 14 }
    (by decide) (by decide) (by decide)).2

/-! ### Claim C1 -/

/-- Claim C1 fails on the code: with hole cards 2♥ 3♥ and board
4♥ 5♥ 6♥ A♥ 7♠, `evaluate_hand` returns a plain A-high FLUSH, although
the five-card subset 2♥ 3♥ 4♥ 5♥ 6♥ of the seven input cards is a 6-high
STRAIGHT_FLUSH (category 8 > 5, hence strictly greater scalar value):
the straight-flush test only examines the top five ranks of the flush
suit, so the result is not the maximum over all 5-card subsets. -/
theorem C1_straight_flush_missed :
    (evaluate_hand ⟨(⟨.h, 2⟩, ⟨.h, 3⟩)⟩
        { flops := some (⟨.h, 4⟩, ⟨.h, 5⟩, ⟨.h, 6⟩),
          turn := some ⟨.h, 14⟩, river := some ⟨.s, 7⟩ } =
      { hand_type := "FLUSH", primary_rank := 14, kicker_ranks := [6, 5, 4, 3] }) ∧
    (evalCards [⟨.h, 2⟩, ⟨.h, 3⟩, ⟨.h, 4⟩, ⟨.h, 5⟩, ⟨.h, 6⟩] =
      { hand_type := "STRAIGHT_FLUSH", primary_rank := 6 }) ∧
    ([⟨.h, 2⟩, ⟨.h, 3⟩, ⟨.h, 4⟩, ⟨.h, 5⟩, ⟨.h, 6⟩] : List Card) ⊆
      (⟨.h, 2⟩ :: ⟨.h, 3⟩ ::
        Board.boardCards
          { flops := some (⟨.h, 4⟩, ⟨.h, 5⟩, ⟨.h, 6⟩),
            turn := some ⟨.h, 14⟩, river := some ⟨.s, 7⟩ }) ∧
    calcValue { hand_type := "FLUSH", primary_rank := 14, kicker_ranks := [6, 5, 4, 3] } <
      calcValue { hand_type := "STRAIGHT_FLUSH", primary_rank := 6 } := by
  refine ⟨by decide, by decide, by decide, by decide⟩

/-! ### Claim C2 -/

/-- Claim C2 fails on the code: the spade and heart Aces compare equal
(`__eq__` is rank-only) yet hash differently (`__hash__` covers the
suit). -/
theorem C2_equal_cards_hash_differently :
    cardEq ⟨.s, 14⟩ ⟨.h, 14⟩ = true ∧ cardHash ⟨.s, 14⟩ ≠ cardHash ⟨.h, 14⟩ := by
  decide

/-- Claim C2 as amended: for valid cards, equality holds iff the ranks are
equal regardless of suit and less-than compares ranks only, but the hash
is computed from the (suit, rank) pair, so two cards hash equal iff they
agree in both suit and rank — equal cards of different suits hash
differently. -/
theorem C2_rank_only_compare_suit_rank_hash (a b : Card)
    (ha : 2 ≤ a.rank_int ∧ a.rank_int ≤ 14) (hb : 2 ≤ b.rank_int ∧ b.rank_int ≤ 14) :
    (cardEq a b = true ↔ a.rank_int = b.rank_int) ∧
    (cardLt a b = true ↔ a.rank_int < b.rank_int) ∧
    (cardHash a = cardHash b ↔ a.suit = b.suit ∧ a.rank_int = b.rank_int) := by
  obtain ⟨sa, ra⟩ := a
  obtain ⟨sb, rb⟩ := b
  simp only [cardEq, cardLt, cardHash] at *
  refine ⟨by simp, by simp, ?_⟩
  cases sa <;> cases sb <;> simp [suitIdx] <;> omega

/-- Witness for C2's amended statement at the spade and diamond Kings. -/
theorem C2_witness :
    (cardEq ⟨.s, 13⟩ ⟨.d, 13⟩ = true ↔ (13 : Nat) = 13) ∧
    (cardLt ⟨.s, 13⟩ ⟨.d, 13⟩ = true ↔ (13 : Nat) < 13) ∧
    (cardHash ⟨.s, 13⟩ = cardHash ⟨.d, 13⟩ ↔ Suit.s = Suit.d ∧ (13 : Nat) = 13) :=
  C2_rank_only_compare_suit_rank_hash ⟨.s, 13⟩ ⟨.d, 13⟩ (by decide) (by decide)

/-! ### Claim C3 -/

/-- Claim C3: the simulation deck is the full 52-card deck filtered with
rank-only membership — it holds exactly the valid cards whose rank
differs from every known (hand or board) card's rank; in particular with
a pocket pair of Aces and an empty board it has 48 cards, not 50. -/
theorem C3_remaining_deck_rank_filter :
    (∀ (known : List Card) (c : Card),
      c ∈ remaining_deck known ↔
        c ∈ create_deck ∧ ∀ k ∈ known, k.rank_int ≠ c.rank_int) ∧
    (remaining_deck [⟨.s, 14⟩, ⟨.h, 14⟩]).length = 48 := by
  constructor
  · intro known c
    simp only [remaining_deck, List.mem_filter, cardEq, Bool.not_eq_true',
      List.any_eq_false]
    constructor
    · rintro ⟨hmem, hno⟩
      refine ⟨hmem, fun k hk he => ?_⟩
      have := hno k hk
      simp [he] at this
    · rintro ⟨hmem, hall⟩
      refine ⟨hmem, fun k hk => ?_⟩
      simp only [beq_iff_eq]
      exact fun he => hall k hk he.symm
  · decide

/-- Witness for C3 at a concrete deck query: the club Ace is excluded
from the deck remaining after a pocket pair of Aces. -/
theorem C3_witness :
    (⟨.c, 14⟩ : Card) ∈ remaining_deck [⟨.s, 14⟩, ⟨.h, 14⟩] ↔
      (⟨.c, 14⟩ : Card) ∈ create_deck ∧
        ∀ k ∈ ([⟨.s, 14⟩, ⟨.h, 14⟩] : List Card), k.rank_int ≠ (14 : Nat) :=
  C3_remaining_deck_rank_filter.1 [⟨.s, 14⟩, ⟨.h, 14⟩] ⟨.c, 14⟩

/-! ### Dict lemmas -/

theorem dGet_dSet_self {α : Type} (d : List (String × α)) (k : String) (v : α) (dflt : α) :
    dGet (dSet d k v) k dflt = v := by
  induction d with
  | nil => simp [dGet, dSet]
  | cons e rest ih =>
    by_cases hk : e.1 = k
    · simp [dSet, hk, dGet]
    · have hk' : (e.1 == k) = false := by simpa using hk
      simp only [dSet, hk', Bool.false_eq_true, if_false]
      simpa [dGet, List.find?, hk'] using ih

/-- Assigning a fresh key appends it at the end of the dict. -/
theorem dSet_append_of_fresh {α : Type} (d : List (String × α)) (k : String) (v : α)
    (h : ∀ e ∈ d, e.1 ≠ k) : dSet d k v = d ++ [(k, v)] := by
  induction d with
  | nil => simp [dSet]
  | cons e rest ih =>
    have he : (e.1 == k) = false := by simpa using h e (by simp)
    simp only [dSet, he, Bool.false_eq_true, if_false, List.cons_append]
    rw [ih (fun x hx => h x (by simp [hx]))]

/-- The dict comprehension `{a: f(a) for a in actions}` over distinct keys
is the association list pairing each action with its value. -/
theorem foldl_dSet_map {α : Type} (f : String → α) (actions pre : List String)
    (hd : (pre ++ actions).Nodup) :
    actions.foldl (fun d a => dSet d a (f a)) (pre.map (fun a => (a, f a))) =
      (pre ++ actions).map (fun a => (a, f a)) := by
  induction actions generalizing pre with
  | nil => simp
  | cons a rest ih =>
    have ha : ∀ e ∈ pre.map (fun a => (a, f a)), e.1 ≠ a := by
      intro e he
      obtain ⟨x, hx, rfl⟩ := List.mem_map.1 he
      intro hxa
      subst hxa
      exact (List.disjoint_of_nodup_append hd) hx (by simp)
    simp only [List.foldl_cons, dSet_append_of_fresh _ _ _ ha]
    have hmap : (pre.map (fun a => (a, f a))) ++ [(a, f a)] =
        (pre ++ [a]).map (fun a => (a, f a)) := by simp
    rw [hmap]
    have hd' : ((pre ++ [a]) ++ rest).Nodup := by
      simpa [List.append_assoc] using hd
    simpa [List.append_assoc] using ih (pre ++ [a]) hd'

theorem sum_map_div (l : List ℚ) (t : ℚ) : ((l.map (fun x => x / t)).sum) = l.sum / t := by
  induction l with
  | nil => simp
  | cons x xs ih => simp [ih, add_div]

theorem map_snd_pairs {α : Type} (f : String → α) (l : List String) :
    (l.map (fun a => (a, f a))).map (fun p => p.2) = l.map f := by
  induction l with
  | nil => rfl
  | cons a rest ih => simp [ih]

theorem map_pair_div_snd (f : String → ℚ) (t : ℚ) (l : List String) :
    ((l.map (fun a => (a, f a))).map (fun p => (p.1, p.2 / t))).map (fun p => p.2) =
      l.map (fun a => f a / t) := by
  induction l with
  | nil => rfl
  | cons a rest ih => simp [ih]

theorem map_div_comm (f : String → ℚ) (t : ℚ) (l : List String) :
    l.map (fun a => f a / t) = (l.map f).map (fun x => x / t) := by
  induction l with
  | nil => rfl
  | cons a rest ih => simp [ih]

theorem sum_map_constQ (l : List String) (c : ℚ) :
    (l.map (fun _ => c)).sum = (l.length : ℚ) * c := by
  induction l with
  | nil => simp
  | cons a rest ih =>
    simp [ih]
    ring

theorem map_pair_div_pointwise (f : String → ℚ) (t : ℚ) (l : List String) :
    (l.map (fun a => (a, f a))).map (fun p => (p.1, p.2 / t)) =
      l.map (fun a => (a, f a / t)) := by
  induction l with
  | nil => rfl
  | cons a rest ih => simp [ih]

/-! ### Claim C7 -/

/-- Claim C7: `get_strategy` always increments the state's visit counter;
below the learning threshold it returns exactly
`heuristic_strategy(eq_bucket, valid_actions)`; the heuristic restricts
the static table for the bucket (the facing-a-bet table iff `'call'` is
legal) to the legal actions and renormalises to total mass 1; and when
the legal action set is exactly the tabulated one (either table), the
raw table entries are returned unchanged. -/
theorem C7_get_strategy_below_threshold (m : SimpleMCCFR) (key : String)
    (actions : List String) (bucket : Nat) :
    (dGet (get_strategy m key actions bucket).1.visit_count key 0 =
      dGet m.visit_count key 0 + 1) ∧
    (dGet m.visit_count key 0 + 1 < LEARN_THRESHOLD →
      (get_strategy m key actions bucket).2 = heuristic_strategy bucket actions) ∧
    (actions ≠ [] → actions.Nodup →
      ((heuristic_strategy bucket actions).map (fun p => p.2)).sum = 1) ∧
    (bucket ≤ 7 → actions.Nodup → actions.Perm ["raise", "call", "fold"] →
      heuristic_strategy bucket actions =
        actions.map (fun a => (a, dGet (CALL_STRAT bucket) a 0))) ∧
    (bucket ≤ 7 → actions.Nodup → actions.Perm ["raise", "check"] →
      heuristic_strategy bucket actions =
        actions.map (fun a => (a, dGet (BET_STRAT bucket) a 0))) := by
  have hfold : ∀ {α : Type} (f : String → α), actions.Nodup →
      actions.foldl (fun d a => dSet d a (f a)) [] = actions.map (fun a => (a, f a)) := by
    intro α f hnd
    simpa using foldl_dSet_map f actions [] (by simpa using hnd)
  refine ⟨?_, ?_, ?_, ?_, ?_⟩
  · simp only [get_strategy]
    split <;> simp [dGet_dSet_self]
  · intro h
    simp only [get_strategy, if_pos h]
  · intro hne hnd
    have hlen : (actions.length : ℚ) ≠ 0 := by
      simpa using fun h => hne (List.length_eq_zero.1 h)
    simp only [heuristic_strategy]
    set base := if actions.contains "call" = true then CALL_STRAT bucket
      else BET_STRAT bucket with hbase
    rw [hfold (fun a => dGet base a 0) hnd, map_snd_pairs]
    by_cases ht : (actions.map (fun a => dGet base a 0)).sum = 0
    · rw [if_pos (by simpa using ht)]
      rw [hfold (fun _ => (1 : ℚ) / (actions.length : ℚ)) hnd, map_snd_pairs]
      rw [sum_map_constQ]
      field_simp
    · rw [if_neg (by simpa using ht)]
      rw [map_pair_div_snd, map_div_comm, sum_map_div, div_self ht]
  · intro _ hnd hperm
    have hmem : "call" ∈ actions := hperm.mem_iff.2 (by simp)
    have hcall : actions.contains "call" = true := List.elem_eq_true_of_mem hmem
    simp only [heuristic_strategy, hcall, if_pos rfl, reduceIte]
    rw [hfold (fun a => dGet (CALL_STRAT bucket) a 0) hnd, map_snd_pairs]
    have hsum : (actions.map (fun a => dGet (CALL_STRAT bucket) a 0)).sum = 1 := by
      rw [List.Perm.sum_eq (hperm.map (fun a => dGet (CALL_STRAT bucket) a 0))]
      match bucket, hperm with
      | 0, _ => simp [CALL_STRAT, BET_STRAT, dGet, List.find?] <;> norm_num
      | 1, _ => simp [CALL_STRAT, BET_STRAT, dGet, List.find?] <;> norm_num
      | 2, _ => simp [CALL_STRAT, BET_STRAT, dGet, List.find?] <;> norm_num
      | 3, _ => simp [CALL_STRAT, BET_STRAT, dGet, List.find?] <;> norm_num
      | 4, _ => simp [CALL_STRAT, BET_STRAT, dGet, List.find?] <;> norm_num
      | 5, _ => simp [CALL_STRAT, BET_STRAT, dGet, List.find?] <;> norm_num
      | 6, _ => simp [CALL_STRAT, BET_STRAT, dGet, List.find?] <;> norm_num
      | 7, _ => simp [CALL_STRAT, BET_STRAT, dGet, List.find?] <;> norm_num
    rw [hsum]
    rw [if_neg (by norm_num)]
    rw [map_pair_div_pointwise]
    simp
  · intro _ hnd hperm
    have hmem : "call" ∉ actions := by
      intro hc
      simpa using hperm.mem_iff.1 hc
    have hcall : actions.contains "call" = false :=
      Bool.eq_false_iff.2 (fun hc => hmem (List.mem_of_elem_eq_true hc))
    simp only [heuristic_strategy, hcall, Bool.false_eq_true, if_false, reduceIte]
    rw [hfold (fun a => dGet (BET_STRAT bucket) a 0) hnd, map_snd_pairs]
    have hsum : (actions.map (fun a => dGet (BET_STRAT bucket) a 0)).sum = 1 := by
      rw [List.Perm.sum_eq (hperm.map (fun a => dGet (BET_STRAT bucket) a 0))]
      match bucket, hperm with
      | 0, _ => simp [CALL_STRAT, BET_STRAT, dGet, List.find?] <;> norm_num
      | 1, _ => simp [CALL_STRAT, BET_STRAT, dGet, List.find?] <;> norm_num
      | 2, _ => simp [CALL_STRAT, BET_STRAT, dGet, List.find?] <;> norm_num
      | 3, _ => simp [CALL_STRAT, BET_STRAT, dGet, List.find?] <;> norm_num
      | 4, _ => simp [CALL_STRAT, BET_STRAT, dGet, List.find?] <;> norm_num
      | 5, _ => simp [CALL_STRAT, BET_STRAT, dGet, List.find?] <;> norm_num
      | 6, _ => simp [CALL_STRAT, BET_STRAT, dGet, List.find?] <;> norm_num
      | 7, _ => simp [CALL_STRAT, BET_STRAT, dGet, List.find?] <;> norm_num
    rw [hsum]
    rw [if_neg (by norm_num)]
    rw [map_pair_div_pointwise]
    simp

/-- Witness for C7 with the full facing-a-bet action set at bucket 5. -/
theorem C7_witness :
    (dGet (get_strategy {} "k" ["fold", "call", "raise"] 5).1.visit_count "k" 0 =
      dGet ({} : SimpleMCCFR).visit_count "k" 0 + 1) ∧
    ((get_strategy {} "k" ["fold", "call", "raise"] 5).2 =
      heuristic_strategy 5 ["fold", "call", "raise"]) ∧
    (((heuristic_strategy 5 ["fold", "call", "raise"]).map (fun p => p.2)).sum = 1) ∧
    (heuristic_strategy 5 ["fold", "call", "raise"] =
      ["fold", "call", "raise"].map (fun a => (a, dGet (CALL_STRAT 5) a 0))) := by
  obtain ⟨h1, h2, h3, h4, _⟩ :=
    C7_get_strategy_below_threshold {} "k" ["fold", "call", "raise"] 5
  exact ⟨h1, h2 (by decide), h3 (by decide) (by decide),
    h4 (by norm_num) (by decide) (by decide)⟩

/-! ### Claim C8 -/

/-- Claim C8 fails on the code: a file holding the valid JSON text `[]`
parses to a list, `data.get` then raises `AttributeError`, which the
`except (json.JSONDecodeError, KeyError, TypeError, ValueError)` clause
does not catch — `load` raises. -/
theorem C8_load_raises_on_non_dict_json :
    cfrLoad {} (some (some (.arr []))) = ({}, true) := rfl

/-- Claim C8 as amended: `load` returns silently with the engine state
unchanged on a missing file and on a file whose contents JSON parsing
rejects, and content-level conversion failures are caught silently; but
a file parsing to valid non-dict JSON raises `AttributeError` out of
`load`, and a partially valid file can leave a partially loaded state —
entries assigned before the first conversion failure remain (below, the
`"a"` row is kept while `"b"` fails). -/
theorem C8_load_missing_or_unparseable_silent (m : SimpleMCCFR) :
    (cfrLoad m none = (m, false)) ∧
    (cfrLoad m (some none) = (m, false)) ∧
    (∀ items, cfrLoad m (some (some (.arr items))) = (m, true)) ∧
    (cfrLoad {} (some (some (.obj [("regret_sum",
        .obj [("a", .obj [("x", .num 1)]), ("b", .obj [("y", .null)])])]))) =
      ({ regret_sum := [("a", [("x", 1)])] }, false)) := by
  refine ⟨rfl, rfl, fun items => rfl, rfl⟩

/-! ### Merge lookup lemmas -/

theorem dGet_nil {α : Type} (k : String) (dflt : α) : dGet ([] : List (String × α)) k dflt = dflt :=
  rfl

theorem dGet_cons {α : Type} (e : String × α) (rest : List (String × α)) (k : String)
    (dflt : α) :
    dGet (e :: rest) k dflt = if e.1 = k then e.2 else dGet rest k dflt := by
  by_cases h : e.1 = k
  · simp [dGet, List.find?, h]
  · have h' : (e.1 == k) = false := by simpa using h
    simp [dGet, List.find?, h', h]

theorem dSet_nil {α : Type} (k : String) (v : α) :
    dSet ([] : List (String × α)) k v = [(k, v)] := rfl

theorem dSet_cons {α : Type} (e : String × α) (rest : List (String × α)) (k : String) (v : α) :
    dSet (e :: rest) k v = if e.1 = k then (k, v) :: rest else e :: dSet rest k v := by
  by_cases h : e.1 = k <;> simp [dSet, h]

theorem qSum_nil (a : String) : qSum [] a = 0 := rfl

theorem qSum_cons (k : String) (v : ℚ) (rest : List (String × ℚ)) (a : String) :
    qSum ((k, v) :: rest) a = (if k = a then v else 0) + qSum rest a := by
  by_cases h : k = a <;> simp [qSum, h]

theorem qSum2_nil (s a : String) : qSum2 [] s a = 0 := rfl

theorem qSum2_cons (k : String) (inner : List (String × ℚ))
    (rest : List (String × List (String × ℚ))) (s a : String) :
    qSum2 ((k, inner) :: rest) s a = (if k = s then qSum inner a else 0) + qSum2 rest s a := by
  by_cases h : k = s <;> simp [qSum2, h]

theorem iSum_nil (a : String) : iSum [] a = 0 := rfl

theorem iSum_cons (k : String) (v : Int) (rest : List (String × Int)) (a : String) :
    iSum ((k, v) :: rest) a = (if k = a then v else 0) + iSum rest a := by
  by_cases h : k = a <;> simp [iSum, h]

theorem qSum_dSet_bump (d : List (String × ℚ)) (k : String) (v : ℚ) (a : String) :
    qSum (dSet d k (dGet d k 0 + v)) a = qSum d a + (if k = a then v else 0) := by
  induction d with
  | nil =>
    rw [dGet_nil, dSet_nil, qSum_cons, qSum_nil]
    split_ifs <;> ring
  | cons e rest ih =>
    obtain ⟨k', w⟩ := e
    rw [dGet_cons, dSet_cons]
    by_cases h : k' = k
    · rw [if_pos h, if_pos h, qSum_cons, qSum_cons]
      subst h
      split_ifs <;> ring
    · rw [if_neg h, if_neg h, qSum_cons, qSum_cons, ih]
      ring

theorem qSum2_bumpNested (acc : List (String × List (String × ℚ))) (s a : String) (v : ℚ)
    (s' a' : String) :
    qSum2 (bumpNested acc s a v) s' a' =
      qSum2 acc s' a' + (if s = s' ∧ a = a' then v else 0) := by
  induction acc with
  | nil =>
    simp only [bumpNested]
    rw [dGet_nil, dSet_nil, dGet_nil, dSet_nil, qSum2_cons, qSum_cons, qSum_nil, qSum2_nil]
    split_ifs with h1 h2 h3 <;> simp_all <;> ring
  | cons e rest ih =>
    obtain ⟨k, inner⟩ := e
    simp only [bumpNested] at ih ⊢
    rw [dGet_cons, dSet_cons]
    by_cases h : k = s
    · rw [if_pos h, if_pos h, qSum2_cons, qSum2_cons]
      subst h
      rw [qSum_dSet_bump]
      split_ifs with h1 h2 h3 <;> simp_all <;> ring
    · rw [if_neg h, if_neg h, qSum2_cons, qSum2_cons, ih]
      ring

theorem qSum2_addActions (acc : List (String × List (String × ℚ))) (s : String)
    (entries : List (String × ℚ)) (s' a' : String) :
    qSum2 (addActions acc s entries) s' a' =
      qSum2 acc s' a' + (if s = s' then qSum entries a' else 0) := by
  induction entries generalizing acc with
  | nil =>
    rw [show addActions acc s [] = acc from rfl, qSum_nil]
    split_ifs <;> ring
  | cons e rest ih =>
    obtain ⟨action, value⟩ := e
    rw [show addActions acc s ((action, value) :: rest) =
      addActions (bumpNested acc s action value) s rest from rfl]
    rw [ih, qSum2_bumpNested, qSum_cons]
    split_ifs with h1 h2 h3 <;> simp_all <;> ring

theorem qSum2_addNested (acc entries : List (String × List (String × ℚ))) (s' a' : String) :
    qSum2 (addNested acc entries) s' a' = qSum2 acc s' a' + qSum2 entries s' a' := by
  induction entries generalizing acc with
  | nil => simp [addNested, qSum2]
  | cons e rest ih =>
    obtain ⟨s, actions⟩ := e
    rw [show addNested acc ((s, actions) :: rest) =
      addNested (addActions acc s actions) rest from rfl]
    rw [ih, qSum2_addActions, qSum2_cons]
    ring

theorem iSum_dSet_bump (d : List (String × Int)) (k : String) (v : Int) (a : String) :
    iSum (dSet d k (dGet d k 0 + v)) a = iSum d a + (if k = a then v else 0) := by
  induction d with
  | nil =>
    rw [dGet_nil, dSet_nil, iSum_cons, iSum_nil]
    split_ifs <;> ring
  | cons e rest ih =>
    obtain ⟨k', w⟩ := e
    rw [dGet_cons, dSet_cons]
    by_cases h : k' = k
    · rw [if_pos h, if_pos h, iSum_cons, iSum_cons]
      subst h
      split_ifs <;> ring
    · rw [if_neg h, if_neg h, iSum_cons, iSum_cons, ih]
      ring

theorem iSum_addCounts (acc entries : List (String × Int)) (a : String) :
    iSum (addCounts acc entries) a = iSum acc a + iSum entries a := by
  induction entries generalizing acc with
  | nil => simp [addCounts, iSum]
  | cons e rest ih =>
    obtain ⟨s, count⟩ := e
    rw [show addCounts acc ((s, count) :: rest) =
      addCounts (dSet acc s (dGet acc s 0 + count)) rest from rfl]
    rw [ih, iSum_dSet_bump, iSum_cons]
    ring

theorem merge_fold_lookup (results : List SimpleMCCFR) (acc : SimpleMCCFR) (s a : String) :
    (qSum2 (results.foldl mergeStep acc).regret_sum s a =
      qSum2 acc.regret_sum s a + (results.map (fun r => qSum2 r.regret_sum s a)).sum) ∧
    (qSum2 (results.foldl mergeStep acc).strategy_sum s a =
      qSum2 acc.strategy_sum s a + (results.map (fun r => qSum2 r.strategy_sum s a)).sum) ∧
    (iSum (results.foldl mergeStep acc).visit_count s =
      iSum acc.visit_count s + (results.map (fun r => iSum r.visit_count s)).sum) := by
  induction results generalizing acc with
  | nil => simp
  | cons r rest ih =>
    simp only [List.foldl_cons, List.map_cons, List.sum_cons]
    obtain ⟨h1, h2, h3⟩ := ih (mergeStep acc r)
    refine ⟨?_, ?_, ?_⟩
    · rw [h1]
      simp only [mergeStep, qSum2_addNested]
      ring
    · rw [h2]
      simp only [mergeStep, qSum2_addNested]
      ring
    · rw [h3]
      simp only [mergeStep, iSum_addCounts]
      ring

/-! ### Dict well-formedness: sums agree with first-match lookup -/

theorem qSum_eq_zero_of_not_key (d : List (String × ℚ)) (a : String)
    (h : a ∉ d.map Prod.fst) : qSum d a = 0 := by
  induction d with
  | nil => rfl
  | cons e rest ih =>
    obtain ⟨k, w⟩ := e
    rw [qSum_cons, if_neg (by rintro rfl; exact h (by simp)), ih (fun hm => h (by simp [hm]))]
    ring

theorem qSum2_eq_zero_of_not_key (d : List (String × List (String × ℚ))) (s a : String)
    (h : s ∉ d.map Prod.fst) : qSum2 d s a = 0 := by
  induction d with
  | nil => rfl
  | cons e rest ih =>
    obtain ⟨k, inner⟩ := e
    rw [qSum2_cons, if_neg (by rintro rfl; exact h (by simp)), ih (fun hm => h (by simp [hm]))]
    ring

theorem iSum_eq_zero_of_not_key (d : List (String × Int)) (a : String)
    (h : a ∉ d.map Prod.fst) : iSum d a = 0 := by
  induction d with
  | nil => rfl
  | cons e rest ih =>
    obtain ⟨k, w⟩ := e
    rw [iSum_cons, if_neg (by rintro rfl; exact h (by simp)), ih (fun hm => h (by simp [hm]))]
    ring

theorem qSum_eq_dGet (d : List (String × ℚ)) (a : String) (h : NodupKeys d) :
    qSum d a = dGet d a 0 := by
  induction d with
  | nil => rfl
  | cons e rest ih =>
    obtain ⟨k, w⟩ := e
    have hnd : NodupKeys rest := (List.nodup_cons.1 h).2
    have hk : k ∉ rest.map Prod.fst := (List.nodup_cons.1 h).1
    rw [qSum_cons, dGet_cons]
    by_cases hka : k = a
    · subst hka
      rw [if_pos rfl, if_pos rfl, qSum_eq_zero_of_not_key rest k hk]
      ring
    · rw [if_neg hka, if_neg hka, ih hnd]
      ring

theorem qSum2_eq_dGet (d : List (String × List (String × ℚ))) (s a : String)
    (h : NodupKeys2 d) : qSum2 d s a = dGet (dGet d s []) a 0 := by
  obtain ⟨hout, hin⟩ := h
  induction d with
  | nil => rfl
  | cons e rest ih =>
    obtain ⟨k, inner⟩ := e
    have hnd : NodupKeys rest := (List.nodup_cons.1 hout).2
    have hk : k ∉ rest.map Prod.fst := (List.nodup_cons.1 hout).1
    rw [qSum2_cons, dGet_cons]
    by_cases hks : k = s
    · subst hks
      rw [if_pos rfl, if_pos rfl, qSum2_eq_zero_of_not_key rest k a hk,
        qSum_eq_dGet inner a (hin (k, inner) (by simp))]
      ring
    · rw [if_neg hks, if_neg hks, ih hnd (fun e he => hin e (by simp [he]))]
      ring

theorem iSum_eq_dGet (d : List (String × Int)) (a : String) (h : NodupKeys d) :
    iSum d a = dGet d a 0 := by
  induction d with
  | nil => rfl
  | cons e rest ih =>
    obtain ⟨k, w⟩ := e
    have hnd : NodupKeys rest := (List.nodup_cons.1 h).2
    have hk : k ∉ rest.map Prod.fst := (List.nodup_cons.1 h).1
    rw [iSum_cons, dGet_cons]
    by_cases hka : k = a
    · subst hka
      rw [if_pos rfl, if_pos rfl, iSum_eq_zero_of_not_key rest k hk]
      ring
    · rw [if_neg hka, if_neg hka, ih hnd]
      ring

theorem mem_keys_dSet {α : Type} (d : List (String × α)) (k : String) (v : α) (x : String)
    (h : x ∈ (dSet d k v).map Prod.fst) : x ∈ d.map Prod.fst ∨ x = k := by
  induction d with
  | nil =>
    rw [dSet_nil] at h
    simp at h
    exact Or.inr h
  | cons e rest ih =>
    rw [dSet_cons] at h
    by_cases he : e.1 = k
    · rw [if_pos he] at h
      simp at h
      rcases h with h | h
      · exact Or.inr h
      · exact Or.inl (by simp [h])
    · rw [if_neg he] at h
      simp at h
      rcases h with h | h
      · exact Or.inl (by simp [h])
      · rcases ih (by simpa using h) with h' | h'
        · exact Or.inl (by simp; right; simpa using h')
        · exact Or.inr h'

theorem nodup_keys_dSet {α : Type} (d : List (String × α)) (k : String) (v : α)
    (h : NodupKeys d) : NodupKeys (dSet d k v) := by
  induction d with
  | nil => simp [dSet_nil, NodupKeys]
  | cons e rest ih =>
    have hnd : NodupKeys rest := (List.nodup_cons.1 h).2
    have hk : e.1 ∉ rest.map Prod.fst := (List.nodup_cons.1 h).1
    rw [dSet_cons]
    by_cases he : e.1 = k
    · rw [if_pos he]
      subst he
      exact h
    · rw [if_neg he]
      refine List.nodup_cons.2 ⟨?_, ih hnd⟩
      intro hmem
      rcases mem_keys_dSet rest k v e.1 (by simpa using hmem) with h' | h'
      · exact hk h'
      · exact he h'

theorem mem_dSet_elems {α : Type} (d : List (String × α)) (k : String) (v : α)
    (e' : String × α) (h : e' ∈ dSet d k v) : e' ∈ d ∨ e' = (k, v) := by
  induction d with
  | nil =>
    rw [dSet_nil] at h
    simp at h
    exact Or.inr h
  | cons e rest ih =>
    rw [dSet_cons] at h
    by_cases he : e.1 = k
    · rw [if_pos he] at h
      rcases List.mem_cons.1 h with h' | h'
      · exact Or.inr h'
      · exact Or.inl (List.mem_cons.2 (Or.inr h'))
    · rw [if_neg he] at h
      rcases List.mem_cons.1 h with h' | h'
      · exact Or.inl (List.mem_cons.2 (Or.inl h'))
      · rcases ih h' with h'' | h''
        · exact Or.inl (List.mem_cons.2 (Or.inr h''))
        · exact Or.inr h''

theorem nodup_dGet_inner (d : List (String × List (String × ℚ))) (s : String)
    (h : NodupKeys2 d) : NodupKeys (dGet d s []) := by
  induction d with
  | nil => simp [dGet_nil, NodupKeys]
  | cons e rest ih =>
    rw [dGet_cons]
    by_cases he : e.1 = s
    · rw [if_pos he]
      exact h.2 e (by simp)
    · rw [if_neg he]
      exact ih ⟨(List.nodup_cons.1 h.1).2, fun e' he' => h.2 e' (by simp [he'])⟩

theorem nodupKeys2_bumpNested (acc : List (String × List (String × ℚ))) (s a : String)
    (v : ℚ) (h : NodupKeys2 acc) : NodupKeys2 (bumpNested acc s a v) := by
  constructor
  · exact nodup_keys_dSet _ _ _ h.1
  · intro e he
    rcases mem_dSet_elems _ _ _ e he with h' | h'
    · exact h.2 e h'
    · rw [h']
      exact nodup_keys_dSet _ _ _ (nodup_dGet_inner acc s h)

theorem nodupKeys2_addActions (acc : List (String × List (String × ℚ))) (s : String)
    (entries : List (String × ℚ)) (h : NodupKeys2 acc) :
    NodupKeys2 (addActions acc s entries) := by
  induction entries generalizing acc with
  | nil => exact h
  | cons e rest ih =>
    obtain ⟨action, value⟩ := e
    exact ih _ (nodupKeys2_bumpNested acc s action value h)

theorem nodupKeys2_addNested (acc entries : List (String × List (String × ℚ)))
    (h : NodupKeys2 acc) : NodupKeys2 (addNested acc entries) := by
  induction entries generalizing acc with
  | nil => exact h
  | cons e rest ih =>
    obtain ⟨s, actions⟩ := e
    exact ih _ (nodupKeys2_addActions acc s actions h)

theorem nodupKeys_addCounts (acc entries : List (String × Int)) (h : NodupKeys acc) :
    NodupKeys (addCounts acc entries) := by
  induction entries generalizing acc with
  | nil => exact h
  | cons e rest ih =>
    obtain ⟨s, count⟩ := e
    exact ih _ (nodup_keys_dSet _ _ _ h)

/-- The merge's accumulators are always well-formed dicts. -/
theorem storeWF_merge (results : List SimpleMCCFR) : StoreWF (merge_cfr_data results) := by
  suffices h : ∀ acc : SimpleMCCFR, StoreWF acc → StoreWF (results.foldl mergeStep acc) by
    exact h {} ⟨⟨List.nodup_nil, by simp⟩, ⟨List.nodup_nil, by simp⟩, List.nodup_nil⟩
  induction results with
  | nil => exact fun acc h => h
  | cons r rest ih =>
    intro acc hacc
    exact ih _ ⟨nodupKeys2_addNested _ _ hacc.1, nodupKeys2_addNested _ _ hacc.2.1,
      nodupKeys_addCounts _ _ hacc.2.2⟩

/-! ### Claim C9 -/

/-- Claim C9: `_merge_cfr_data` computes the pointwise sum of the
regret-sum, strategy-sum and visit-count maps (a key absent from a store
contributes 0): the total mass form holds for arbitrary inputs, the
dict-lookup form for well-formed stores; and the merge is commutative and
associative — permuting the store list, or merging a sub-list first and
feeding its result back in, yields the same three maps. -/
theorem C9_merge_pointwise_sum_comm_assoc (results : List SimpleMCCFR) (s a : String) :
    (qSum2 (merge_cfr_data results).regret_sum s a =
        (results.map (fun r => qSum2 r.regret_sum s a)).sum ∧
      qSum2 (merge_cfr_data results).strategy_sum s a =
        (results.map (fun r => qSum2 r.strategy_sum s a)).sum ∧
      iSum (merge_cfr_data results).visit_count s =
        (results.map (fun r => iSum r.visit_count s)).sum) ∧
    ((∀ r ∈ results, StoreWF r) →
      dGet (dGet (merge_cfr_data results).regret_sum s []) a 0 =
        (results.map (fun r => dGet (dGet r.regret_sum s []) a 0)).sum ∧
      dGet (dGet (merge_cfr_data results).strategy_sum s []) a 0 =
        (results.map (fun r => dGet (dGet r.strategy_sum s []) a 0)).sum ∧
      dGet (merge_cfr_data results).visit_count s 0 =
        (results.map (fun r => dGet r.visit_count s 0)).sum) ∧
    (∀ results' : List SimpleMCCFR, results.Perm results' →
      qSum2 (merge_cfr_data results).regret_sum s a =
        qSum2 (merge_cfr_data results').regret_sum s a ∧
      qSum2 (merge_cfr_data results).strategy_sum s a =
        qSum2 (merge_cfr_data results').strategy_sum s a ∧
      iSum (merge_cfr_data results).visit_count s =
        iSum (merge_cfr_data results').visit_count s) ∧
    (∀ l2 : List SimpleMCCFR,
      qSum2 (merge_cfr_data (merge_cfr_data results :: l2)).regret_sum s a =
        qSum2 (merge_cfr_data (results ++ l2)).regret_sum s a ∧
      qSum2 (merge_cfr_data (merge_cfr_data results :: l2)).strategy_sum s a =
        qSum2 (merge_cfr_data (results ++ l2)).strategy_sum s a ∧
      iSum (merge_cfr_data (merge_cfr_data results :: l2)).visit_count s =
        iSum (merge_cfr_data (results ++ l2)).visit_count s) := by
  have base : ∀ rs : List SimpleMCCFR,
      qSum2 (merge_cfr_data rs).regret_sum s a =
        (rs.map (fun r => qSum2 r.regret_sum s a)).sum ∧
      qSum2 (merge_cfr_data rs).strategy_sum s a =
        (rs.map (fun r => qSum2 r.strategy_sum s a)).sum ∧
      iSum (merge_cfr_data rs).visit_count s =
        (rs.map (fun r => iSum r.visit_count s)).sum := by
    intro rs
    obtain ⟨h1, h2, h3⟩ := merge_fold_lookup rs {} s a
    refine ⟨?_, ?_, ?_⟩
    · simp only [merge_cfr_data]; rw [h1]; simp [qSum2_nil]
    · simp only [merge_cfr_data]; rw [h2]; simp [qSum2_nil]
    · simp only [merge_cfr_data]; rw [h3]; simp [iSum_nil]
  refine ⟨base results, ?_, ?_, ?_⟩
  · intro hwf
    have hob := storeWF_merge results
    obtain ⟨b1, b2, b3⟩ := base results
    refine ⟨?_, ?_, ?_⟩
    · rw [← qSum2_eq_dGet _ s a hob.1, b1]
      congr 1
      exact List.map_congr_left (fun r hr => qSum2_eq_dGet _ s a (hwf r hr).1)
    · rw [← qSum2_eq_dGet _ s a hob.2.1, b2]
      congr 1
      exact List.map_congr_left (fun r hr => qSum2_eq_dGet _ s a (hwf r hr).2.1)
    · rw [← iSum_eq_dGet _ s hob.2.2, b3]
      congr 1
      exact List.map_congr_left (fun r hr => iSum_eq_dGet _ s (hwf r hr).2.2)
  · intro results' hperm
    obtain ⟨b1, b2, b3⟩ := base results
    obtain ⟨c1, c2, c3⟩ := base results'
    exact ⟨by rw [b1, c1]; exact (hperm.map _).sum_eq,
      by rw [b2, c2]; exact (hperm.map _).sum_eq,
      by rw [b3, c3]; exact (hperm.map _).sum_eq⟩
  · intro l2
    obtain ⟨b1, b2, b3⟩ := base results
    obtain ⟨d1, d2, d3⟩ := base (merge_cfr_data results :: l2)
    obtain ⟨e1, e2, e3⟩ := base (results ++ l2)
    refine ⟨?_, ?_, ?_⟩
    · rw [d1, e1]
      simp only [List.map_cons, List.sum_cons, List.map_append, List.sum_append, b1]
    · rw [d2, e2]
      simp only [List.map_cons, List.sum_cons, List.map_append, List.sum_append, b2]
    · rw [d3, e3]
      simp only [List.map_cons, List.sum_cons, List.map_append, List.sum_append, b3]

/-- Witness for C9 with two concrete single-state stores. -/
theorem C9_witness :
    (dGet (dGet (merge_cfr_data
        [{ regret_sum := [("s1", [("raise", 2)])], visit_count := [("s1", 3)] },
         { regret_sum := [("s1", [("raise", 5)])], visit_count := [("s1", 4)] }]).regret_sum
        "s1" []) "raise" 0 =
      (([{ regret_sum := [("s1", [("raise", 2)])], visit_count := [("s1", 3)] },
         { regret_sum := [("s1", [("raise", 5)])], visit_count := [("s1", 4)] }] :
           List SimpleMCCFR).map
          (fun r => dGet (dGet r.regret_sum "s1" []) "raise" 0)).sum) ∧
    (qSum2 (merge_cfr_data
        [{ regret_sum := [("s1", [("raise", 2)])], visit_count := [("s1", 3)] },
         { regret_sum := [("s1", [("raise", 5)])], visit_count := [("s1", 4)] }]).regret_sum
        "s1" "raise" =
      qSum2 (merge_cfr_data
        [{ regret_sum := [("s1", [("raise", 5)])], visit_count := [("s1", 4)] },
         { regret_sum := [("s1", [("raise", 2)])], visit_count := [("s1", 3)] }]).regret_sum
        "s1" "raise") := by
  obtain ⟨_, h2, h3, _⟩ := C9_merge_pointwise_sum_comm_assoc
    [{ regret_sum := [("s1", [("raise", 2)])], visit_count := [("s1", 3)] },
     { regret_sum := [("s1", [("raise", 5)])], visit_count := [("s1", 4)] }] "s1" "raise"
  refine ⟨(h2 ?_).1, (h3 _ (List.Perm.swap _ _ [])).1⟩
  simp only [StoreWF, NodupKeys2, NodupKeys]
  decide

/-! ### Stable sort lemmas for the showdown -/

theorem mem_insEvDesc (x z : Nat × Nat) (l : List (Nat × Nat)) :
    z ∈ insEvDesc x l ↔ z = x ∨ z ∈ l := by
  induction l with
  | nil => simp [insEvDesc]
  | cons y ys ih =>
    simp only [insEvDesc]
    by_cases h : x.2 < y.2
    · rw [if_pos h]
      simp only [List.mem_cons, ih] <;> tauto
    · rw [if_neg h]
      simp only [List.mem_cons] <;> tauto

theorem insEvDesc_pairwise (x : Nat × Nat) (l : List (Nat × Nat))
    (h : l.Pairwise geVal) : (insEvDesc x l).Pairwise geVal := by
  induction l with
  | nil => simp [insEvDesc, geVal]
  | cons y ys ih =>
    simp only [insEvDesc]
    obtain ⟨hy, hys⟩ := List.pairwise_cons.1 h
    by_cases hc : x.2 < y.2
    · rw [if_pos hc]
      refine List.pairwise_cons.2 ⟨?_, ih hys⟩
      intro z hz
      rcases (mem_insEvDesc x z ys).1 hz with rfl | hz'
      · exact le_of_lt hc
      · exact hy z hz'
    · rw [if_neg hc]
      refine List.pairwise_cons.2 ⟨?_, h⟩
      intro z hz
      rcases List.mem_cons.1 hz with rfl | hz'
      · exact le_of_not_lt hc
      · exact le_trans (hy z hz') (le_of_not_lt hc)

theorem sortEvDesc_pairwise (l : List (Nat × Nat)) : (sortEvDesc l).Pairwise geVal := by
  induction l with
  | nil => simp [sortEvDesc]
  | cons x xs ih => exact insEvDesc_pairwise x _ ih

theorem insEvDesc_perm (x : Nat × Nat) (l : List (Nat × Nat)) :
    (insEvDesc x l).Perm (x :: l) := by
  induction l with
  | nil => simp [insEvDesc]
  | cons y ys ih =>
    simp only [insEvDesc]
    by_cases h : x.2 < y.2
    · rw [if_pos h]
      exact (ih.cons y).trans (List.Perm.swap x y ys)
    · rw [if_neg h]

theorem sortEvDesc_perm (l : List (Nat × Nat)) : (sortEvDesc l).Perm l := by
  induction l with
  | nil => simp [sortEvDesc]
  | cons x xs ih => exact (insEvDesc_perm x _).trans (ih.cons x)

/-- Stability of the insertion step: the entries carrying any fixed hand
value keep their relative order. -/
theorem filter_insEvDesc (x : Nat × Nat) (l : List (Nat × Nat)) (v : Nat) :
    (insEvDesc x l).filter (fun p => p.2 == v) =
      if x.2 = v then x :: l.filter (fun p => p.2 == v)
      else l.filter (fun p => p.2 == v) := by
  induction l with
  | nil =>
    simp only [insEvDesc, List.filter_cons, List.filter_nil]
    by_cases h : x.2 = v
    · simp [h]
    · simp [h, (by simpa using h : (x.2 == v) = false)]
  | cons y ys ih =>
    simp only [insEvDesc]
    by_cases hc : x.2 < y.2
    · rw [if_pos hc]
      by_cases hx : x.2 = v
      · have hyv : (y.2 == v) = false := by
          have : ¬ y.2 = v := by omega
          simpa using this
        simp only [List.filter_cons, hyv, Bool.false_eq_true, if_false, ih, if_pos hx]
      · simp only [List.filter_cons, ih, if_neg hx]
    · rw [if_neg hc]
      by_cases hx : x.2 = v
      · simp only [List.filter_cons, (by simpa using hx : (x.2 == v) = true), if_true,
          if_pos hx]
      · simp only [List.filter_cons, (by simpa using hx : (x.2 == v) = false),
          Bool.false_eq_true, if_false, if_neg hx]

/-- Stability of the showdown sort: restricted to the entries of one hand
value, the sorted list is the original list. -/
theorem filter_sortEvDesc (l : List (Nat × Nat)) (v : Nat) :
    (sortEvDesc l).filter (fun p => p.2 == v) = l.filter (fun p => p.2 == v) := by
  induction l with
  | nil => simp [sortEvDesc]
  | cons x xs ih =>
    show (insEvDesc x (sortEvDesc xs)).filter _ = _
    rw [filter_insEvDesc, List.filter_cons]
    by_cases h : x.2 = v
    · rw [if_pos h, if_pos (by simpa using h), ih]
    · rw [if_neg h, if_neg (by simpa using h), ih]

/-! ### Winner-scan lemmas -/

theorem sdScan_fixed (contribs : List Int) (b : Nat) (ev : List (Nat × Nat)) :
    sdScan contribs (b : Int) ev =
      (ev.filter (fun p => sdEligB contribs p && (p.2 == b))).map (fun p => p.1) := by
  induction ev with
  | nil => rfl
  | cons p rest ih =>
    obtain ⟨i, v⟩ := p
    have hb : (((b : Nat) : Int) == (-1 : Int)) = false := by
      simp only [beq_eq_false_iff_ne, ne_eq]
      omega
    simp only [sdScan, List.filter_cons, hb, Bool.false_eq_true, if_false]
    by_cases he : contribs.getD i 0 > 0
    · have he' : 0 < contribs[i]?.getD 0 := by simpa [List.getD] using he
      rw [if_pos he]
      by_cases hv : v = b
      · subst hv
        have hvv : (((v : Nat) : Int) == ((v : Nat) : Int)) = true := by simp
        simp only [hvv, if_true, ih, List.map_cons]
        have hpass : (sdEligB contribs (i, v) && ((i, v).2 == v)) = true := by
          simp [sdEligB, he']
        rw [hpass]
        simp
      · have h1 : (((v : Nat) : Int) == ((b : Nat) : Int)) = false := by
          simp only [beq_eq_false_iff_ne, ne_eq]
          omega
        have h2 : (sdEligB contribs (i, v) && ((i, v).2 == b)) = false := by
          simp [sdEligB, hv]
        simp only [h1, Bool.false_eq_true, if_false, ih, h2]
    · have he' : ¬ 0 < contribs[i]?.getD 0 := by simpa [List.getD] using he
      rw [if_neg he]
      have h2 : (sdEligB contribs (i, v) && ((i, v).2 == b)) = false := by
        simp [sdEligB, he']
      simp only [ih, h2, Bool.false_eq_true, if_false]

theorem sdScan_start (contribs : List Int) (ev : List (Nat × Nat)) :
    sdScan contribs (-1) ev =
      match ev.find? (sdEligB contribs) with
      | none => []
      | some p0 =>
        (ev.filter (fun p => sdEligB contribs p && (p.2 == p0.2))).map (fun p => p.1) := by
  induction ev with
  | nil => rfl
  | cons p rest ih =>
    obtain ⟨i, v⟩ := p
    by_cases he : contribs.getD i 0 > 0
    · have he' : 0 < contribs[i]?.getD 0 := by simpa [List.getD] using he
      have helig : sdEligB contribs (i, v) = true := by simp [sdEligB, he']
      rw [List.find?_cons_of_pos _ helig]
      simp only [sdScan]
      rw [if_pos he, if_pos (show ((-1 : Int) == (-1 : Int)) = true by decide)]
      rw [sdScan_fixed]
      simp only [List.filter_cons]
      have hpass : (sdEligB contribs (i, v) && ((i, v).2 == (i, v).2)) = true := by
        simp [sdEligB, he']
      rw [hpass]
      simp
    · have he' : ¬ 0 < contribs[i]?.getD 0 := by simpa [List.getD] using he
      have helig : ¬ sdEligB contribs (i, v) = true := by simp [sdEligB, he']
      rw [List.find?_cons_of_neg _ helig]
      simp only [sdScan]
      rw [if_neg he, ih]
      cases hfind : rest.find? (sdEligB contribs) with
      | none => simp
      | some p0 =>
        simp only [List.filter_cons]
        have hfail : (sdEligB contribs (i, v) && ((i, v).2 == p0.2)) = false := by
          simp [sdEligB, he']
        rw [hfail]
        simp

theorem find_elig_is_max (contribs : List Int) (ev : List (Nat × Nat))
    (hs : ev.Pairwise geVal) (p0 : Nat × Nat)
    (hf : ev.find? (sdEligB contribs) = some p0) :
    ∀ q ∈ ev, sdEligB contribs q = true → q.2 ≤ p0.2 := by
  induction ev with
  | nil => simp at hf
  | cons y ys ih =>
    obtain ⟨hy, hys⟩ := List.pairwise_cons.1 hs
    by_cases hye : sdEligB contribs y = true
    · rw [List.find?_cons_of_pos _ hye] at hf
      cases hf
      intro q hq _
      rcases List.mem_cons.1 hq with rfl | hq'
      · exact le_refl _
      · exact hy q hq'
    · rw [List.find?_cons_of_neg _ hye] at hf
      intro q hq hqe
      rcases List.mem_cons.1 hq with rfl | hq'
      · exact absurd hqe hye
      · exact ih hys hf q hq' hqe

/-! ### Fold-min and list-sum lemmas -/

theorem foldl_min_le_init (l : List Int) (a : Int) : l.foldl min a ≤ a := by
  induction l generalizing a with
  | nil => simp
  | cons x xs ih => exact le_trans (ih (min a x)) (min_le_left a x)

theorem foldl_min_le_mem (l : List Int) (a x : Int) (h : x ∈ l) : l.foldl min a ≤ x := by
  induction l generalizing a with
  | nil => simp at h
  | cons y ys ih =>
    rcases List.mem_cons.1 h with rfl | h'
    · exact le_trans (foldl_min_le_init ys (min a x)) (min_le_right a x)
    · exact ih (min a y) h' 

theorem le_foldl_min (l : List Int) (a b : Int) (ha : b ≤ a) (h : ∀ x ∈ l, b ≤ x) :
    b ≤ l.foldl min a := by
  induction l generalizing a with
  | nil => simpa
  | cons y ys ih =>
    exact ih (min a y) (le_min ha (h y (by simp))) (fun x hx => h x (by simp [hx]))

theorem sum_set_add (ch : List Int) (i : Nat) (x : Int) (h : i < ch.length) :
    (ch.set i (ch.getD i 0 + x)).sum = ch.sum + x := by
  induction ch generalizing i with
  | nil => simp at h
  | cons c rest ih =>
    cases i with
    | zero => simp [List.getD]; ring
    | succ j =>
      simp only [List.set, List.sum_cons, List.getD_cons_succ]
      rw [ih j (by simpa using h)]
      ring

theorem length_foldl_set (idxs : List Nat) (ch : List Int) (x : Int) :
    (idxs.foldl (fun acc i => acc.set i (acc.getD i 0 + x)) ch).length = ch.length := by
  induction idxs generalizing ch with
  | nil => rfl
  | cons i rest ih =>
    simp only [List.foldl_cons]
    rw [ih]
    simp

theorem sum_foldl_set (idxs : List Nat) (ch : List Int) (x : Int)
    (h : ∀ i ∈ idxs, i < ch.length) :
    (idxs.foldl (fun acc i => acc.set i (acc.getD i 0 + x)) ch).sum =
      ch.sum + idxs.length * x := by
  induction idxs generalizing ch with
  | nil => simp
  | cons i rest ih =>
    simp only [List.foldl_cons, List.length_cons]
    rw [ih _ (fun j hj => by rw [List.length_set]; exact h j (by simp [hj]))]
    rw [sum_set_add ch i x (h i (by simp))]
    push_cast
    ring

theorem sum_map_min_sub (l : List Int) (cap : Int) :
    (l.map (fun c => c - min c cap)).sum = l.sum - (l.map (fun c => min c cap)).sum := by
  induction l with
  | nil => simp
  | cons c rest ih =>
    simp only [List.map_cons, List.sum_cons, ih]
    ring

theorem getD_le_sum_of_nonneg (l : List Int) (i : Nat) (h : ∀ c ∈ l, 0 ≤ c) :
    l.getD i 0 ≤ l.sum := by
  induction l generalizing i with
  | nil => simp [List.getD]
  | cons c rest ih =>
    have hrest : (0 : Int) ≤ rest.sum := by
      have : ∀ c ∈ rest, (0:Int) ≤ c := fun c hc => h c (by simp [hc])
      exact List.sum_nonneg this
    cases i with
    | zero => simp [List.getD]; linarith
    | succ j =>
      simp only [List.getD_cons_succ, List.sum_cons]
      have := ih j (fun c hc => h c (by simp [hc]))
      have hc0 := h c (by simp)
      linarith

/-! ### Table-entry lemmas -/

theorem sdTableEntries_mem (values : List (Option Nat)) (i : Nat) :
    ∀ p ∈ sdTableEntries values i,
      i ≤ p.1 ∧ p.1 - i < values.length ∧ values.getD (p.1 - i) none = some p.2 := by
  induction values generalizing i with
  | nil => simp [sdTableEntries]
  | cons v rest ih =>
    cases v with
    | some w =>
      intro p hp
      rcases List.mem_cons.1 hp with rfl | hp'
      · simp [List.getD]
      · obtain ⟨h1, h2, h3⟩ := ih (i + 1) p hp'
        refine ⟨by omega, by simp; omega, ?_⟩
        have : p.1 - i = (p.1 - (i + 1)) + 1 := by omega
        rw [this, List.getD_cons_succ]
        exact h3
    | none =>
      intro p hp
      obtain ⟨h1, h2, h3⟩ := ih (i + 1) p hp
      refine ⟨by omega, by simp; omega, ?_⟩
      have : p.1 - i = (p.1 - (i + 1)) + 1 := by omega
      rw [this, List.getD_cons_succ]
      exact h3

theorem sdTableEntries_mem_of_getD (values : List (Option Nat)) (i j : Nat) (v : Nat)
    (hj : j < values.length) (hv : values.getD j none = some v) :
    (i + j, v) ∈ sdTableEntries values i := by
  induction values generalizing i j with
  | nil => simp at hj
  | cons v0 rest ih =>
    cases j with
    | zero =>
      simp only [List.getD_cons_zero] at hv
      subst hv
      simp [sdTableEntries]
    | succ k =>
      simp only [List.getD_cons_succ] at hv
      have hk : k < rest.length := by simpa using hj
      have := ih (i + 1) k hk hv
      have harith : i + 1 + k = i + (k + 1) := by omega
      rw [harith] at this
      cases v0 with
      | some w => exact List.mem_cons.2 (Or.inr this)
      | none => exact this

theorem sdTableEntries_fst_pairwise (values : List (Option Nat)) (i : Nat) :
    (sdTableEntries values i).Pairwise (fun p q => p.1 < q.1) := by
  induction values generalizing i with
  | nil => simp [sdTableEntries]
  | cons v rest ih =>
    cases v with
    | some w =>
      refine List.pairwise_cons.2 ⟨?_, ih (i + 1)⟩
      intro q hq
      have := (sdTableEntries_mem rest (i + 1) q hq).1
      simpa using by omega
    | none => exact ih (i + 1)

theorem sdTableEntries_fst_nodup (values : List (Option Nat)) (i : Nat) :
    ((sdTableEntries values i).map (fun p => p.1)).Nodup := by
  have hp := sdTableEntries_fst_pairwise values i
  exact List.Pairwise.map _ (fun a b h => Nat.ne_of_lt h) hp

/-! ### Winner characterisation -/

/-- The winner scan over the stably sorted `evaluated_hands` equals, in
table order, the eligible seats whose hand value is maximal among the
eligible seats. -/
theorem sdScan_eq_max_filter (values : List (Option Nat)) (contribs : List Int) :
    sdScan contribs (-1) (sdEvaluated values) =
      ((sdTableEntries values 0).filter (fun p => sdEligB contribs p &&
          decide (∀ q ∈ (sdTableEntries values 0).filter (sdEligB contribs),
            q.2 ≤ p.2))).map (fun p => p.1) := by
  rw [sdScan_start]
  have hperm : (sdEvaluated values).Perm (sdTableEntries values 0) :=
    sortEvDesc_perm _
  cases hfind : (sdEvaluated values).find? (sdEligB contribs) with
  | none =>
    have hnone : ∀ x ∈ sdTableEntries values 0, ¬ sdEligB contribs x = true := by
      intro x hx
      exact List.find?_eq_none.1 hfind x (hperm.mem_iff.2 hx)
    have : (sdTableEntries values 0).filter (fun p => sdEligB contribs p &&
        decide (∀ q ∈ (sdTableEntries values 0).filter (sdEligB contribs),
          q.2 ≤ p.2)) = [] := by
      rw [List.filter_eq_nil_iff]
      intro a ha
      simp [Bool.eq_false_iff.2 (hnone a ha)]
    rw [this]
    rfl
  | some p0 =>
    dsimp only
    have hp0mem : p0 ∈ sdTableEntries values 0 :=
      hperm.mem_iff.1 (List.mem_of_find?_eq_some hfind)
    have hp0elig : sdEligB contribs p0 = true := List.find?_some hfind
    have hmaxS : ∀ q ∈ sdEvaluated values, sdEligB contribs q = true → q.2 ≤ p0.2 :=
      find_elig_is_max contribs _ (sortEvDesc_pairwise _) p0 hfind
    have hmaxT : ∀ q ∈ sdTableEntries values 0, sdEligB contribs q = true → q.2 ≤ p0.2 :=
      fun q hq => hmaxS q (hperm.mem_iff.2 hq)
    congr 1
    have hsplit : ∀ (l : List (Nat × Nat)),
        l.filter (fun p => sdEligB contribs p && (p.2 == p0.2)) =
          (l.filter (fun p => p.2 == p0.2)).filter (sdEligB contribs) := by
      intro l
      rw [List.filter_filter]
    simp only [sdEvaluated]
    rw [hsplit, filter_sortEvDesc, ← hsplit]
    refine List.filter_congr ?_
    intro x hx
    show (sdEligB contribs x && (x.2 == p0.2)) =
      (sdEligB contribs x && decide (∀ q ∈ (sdTableEntries values 0).filter (sdEligB contribs),
        q.2 ≤ x.2))
    by_cases hex : sdEligB contribs x = true
    · rw [hex, Bool.true_and, Bool.true_and]
      by_cases hval : x.2 = p0.2
      · have hall : ∀ q ∈ (sdTableEntries values 0).filter (sdEligB contribs), q.2 ≤ x.2 := by
          intro q hq
          obtain ⟨hqm, hqe⟩ := List.mem_filter.1 hq
          rw [hval]
          exact hmaxT q hqm hqe
        rw [(by simpa using hval : (x.2 == p0.2) = true), decide_eq_true hall]
      · have hnotall : ¬ (∀ q ∈ (sdTableEntries values 0).filter (sdEligB contribs),
            q.2 ≤ x.2) := by
          intro hall
          have hp0f : p0 ∈ (sdTableEntries values 0).filter (sdEligB contribs) :=
            List.mem_filter.2 ⟨hp0mem, hp0elig⟩
          have h1 := hall p0 hp0f
          have h2 := hmaxT x hx hex
          omega
        rw [(by simpa using hval : (x.2 == p0.2) = false), decide_eq_false hnotall]
    · rw [Bool.eq_false_iff.2 hex, Bool.false_and, Bool.false_and]

/-! ### Per-seat payout lemmas -/

theorem getD_set_ne_int (ch : List Int) (j : Nat) (v : Int) (i : Nat) (hij : j ≠ i) :
    (ch.set j v).getD i 0 = ch.getD i 0 := by
  simp [List.getD, List.getElem?_set_ne hij]

theorem getD_set_self_int (ch : List Int) (j : Nat) (v : Int) (h : j < ch.length) :
    (ch.set j v).getD j 0 = v := by
  simp [List.getD, List.getElem?_set_self h]

theorem getD_foldl_set_not_mem (idxs : List Nat) (ch : List Int) (x : Int) (i : Nat)
    (h : i ∉ idxs) :
    (idxs.foldl (fun acc j => acc.set j (acc.getD j 0 + x)) ch).getD i 0 = ch.getD i 0 := by
  induction idxs generalizing ch with
  | nil => rfl
  | cons j rest ih =>
    simp only [List.foldl_cons]
    rw [ih _ (fun hm => h (by simp [hm]))]
    exact getD_set_ne_int ch j _ i (fun hj => h (by simp [← hj]))

theorem getD_foldl_set_mem (idxs : List Nat) (ch : List Int) (x : Int) (i : Nat)
    (hnd : idxs.Nodup) (hi : i ∈ idxs) (hlen : i < ch.length) :
    (idxs.foldl (fun acc j => acc.set j (acc.getD j 0 + x)) ch).getD i 0 =
      ch.getD i 0 + x := by
  induction idxs generalizing ch with
  | nil => simp at hi
  | cons j rest ih =>
    simp only [List.foldl_cons]
    rcases List.mem_cons.1 hi with rfl | hi'
    · have hnm : i ∉ rest := (List.nodup_cons.1 hnd).1
      rw [getD_foldl_set_not_mem rest _ x i hnm]
      exact getD_set_self_int ch i _ hlen
    · have hji : j ≠ i := fun hji => (List.nodup_cons.1 hnd).1 (hji ▸ hi')
      have hlen' : i < (ch.set j (ch.getD j 0 + x)).length := by simpa using hlen
      rw [ih _ (List.nodup_cons.1 hnd).2 hi' hlen', getD_set_ne_int ch j _ i hji]

theorem getD_map_int (l : List Int) (f : Int → Int) (i : Nat) (h : i < l.length) :
    (l.map f).getD i 0 = f (l.getD i 0) := by
  induction l generalizing i with
  | nil => simp at h
  | cons c rest ih =>
    cases i with
    | zero => simp [List.getD]
    | succ j =>
      simp only [List.map_cons, List.getD_cons_succ]
      exact ih j (by simpa using h)

theorem getD_eq_zero_of_ge (l : List Int) (i : Nat) (h : l.length ≤ i) :
    l.getD i 0 = 0 := by
  induction l generalizing i with
  | nil => simp [List.getD]
  | cons c rest ih =>
    cases i with
    | zero => simp at h
    | succ j =>
      simp only [List.getD_cons_succ]
      exact ih j (by simpa using h)

theorem exists_pos_getD (l : List Int) (h : 0 < l.sum) :
    ∃ j, j < l.length ∧ 0 < l.getD j 0 := by
  induction l with
  | nil => simp at h
  | cons c rest ih =>
    by_cases hc : 0 < c
    · exact ⟨0, by simp, by simpa [List.getD]⟩
    · have : 0 < rest.sum := by
        simp only [List.sum_cons] at h
        omega
      obtain ⟨j, hj, hpos⟩ := ih this
      exact ⟨j + 1, by simpa using hj, by simpa [List.getD_cons_succ] using hpos⟩

theorem sdScan_pos (contribs : List Int) (best : Int) (ev : List (Nat × Nat)) :
    ∀ i ∈ sdScan contribs best ev, 0 < contribs.getD i 0 := by
  induction ev generalizing best with
  | nil => simp [sdScan]
  | cons p rest ih =>
    obtain ⟨j, v⟩ := p
    intro i hi
    simp only [sdScan] at hi
    by_cases he : contribs.getD j 0 > 0
    · rw [if_pos he] at hi
      by_cases hb : (best == (-1 : Int)) = true
      · rw [hb] at hi
        simp only [if_true] at hi
        rcases List.mem_cons.1 hi with rfl | hi'
        · exact he
        · exact ih _ i hi'
      · rw [Bool.eq_false_iff.2 hb] at hi
        simp only [Bool.false_eq_true, if_false] at hi
        by_cases hv : ((v : Int) == best) = true
        · rw [hv] at hi
          simp only [if_true] at hi
          rcases List.mem_cons.1 hi with rfl | hi'
          · exact he
          · exact ih _ i hi'
        · rw [Bool.eq_false_iff.2 hv] at hi
          simp only [Bool.false_eq_true, if_false] at hi
          exact ih _ i hi
    · rw [if_neg he] at hi
      exact ih _ i hi

theorem winners_nodup (values : List (Option Nat)) (contribs : List Int) :
    (sdScan contribs (-1) (sdEvaluated values)).Nodup := by
  rw [sdScan_eq_max_filter]
  have hsub : (((sdTableEntries values 0).filter (fun p => sdEligB contribs p &&
      decide (∀ q ∈ (sdTableEntries values 0).filter (sdEligB contribs),
        q.2 ≤ p.2))).map (fun p => p.1)).Sublist
      ((sdTableEntries values 0).map (fun p => p.1)) :=
    (List.filter_sublist _).map _
  exact (sdTableEntries_fst_nodup values 0).sublist hsub

theorem winners_bound (values : List (Option Nat)) (contribs : List Int) :
    ∀ i ∈ sdScan contribs (-1) (sdEvaluated values), i < values.length := by
  rw [sdScan_eq_max_filter]
  intro i hi
  obtain ⟨p, hp, rfl⟩ := List.mem_map.1 hi
  have hpT := (List.mem_filter.1 hp).1
  have := (sdTableEntries_mem values 0 p hpT).2.1
  simpa using this

/-! ### One layer of the side-pot loop -/

/-- One iteration of the side-pot loop, given its winner list: the layer
cap is the least remaining contribution among the winners; the sub-pot
sweeps `min(contribution, cap)` from every seat; the sub-pot is fully
credited — floor share to every winner and the remainder to the first
winner — and nobody else's stack changes. -/
theorem sdStep_spec (values : List (Option Nat)) (contribs chips : List Int) (pot : Int)
    (w : Nat) (ws : List Nat)
    (hscan : sdScan contribs (-1) (sdEvaluated values) = w :: ws)
    (hlc : contribs.length = values.length)
    (hlch : chips.length = values.length)
    (hnn : ∀ c ∈ contribs, 0 ≤ c) :
    ∃ cap chips',
      sdStep (sdEvaluated values) contribs chips pot =
        some (contribs.map (fun c => c - min c cap), chips',
          pot - (contribs.map (fun c => min c cap)).sum) ∧
      (∀ i ∈ w :: ws, cap ≤ contribs.getD i 0) ∧
      (∃ i ∈ w :: ws, cap = contribs.getD i 0) ∧
      1 ≤ cap ∧ cap ≤ (contribs.map (fun c => min c cap)).sum ∧
      chips'.length = chips.length ∧
      chips'.sum = chips.sum + (contribs.map (fun c => min c cap)).sum ∧
      chips'.getD w 0 = chips.getD w 0 +
        ((contribs.map (fun c => min c cap)).sum).fdiv ((w :: ws).length : Int) +
        ((contribs.map (fun c => min c cap)).sum).fmod ((w :: ws).length : Int) ∧
      (∀ i ∈ ws, chips'.getD i 0 = chips.getD i 0 +
        ((contribs.map (fun c => min c cap)).sum).fdiv ((w :: ws).length : Int)) ∧
      (∀ i, i ∉ w :: ws → chips'.getD i 0 = chips.getD i 0) := by
  have hnd : (w :: ws).Nodup := by
    rw [← hscan]
    exact winners_nodup values contribs
  have hbound : ∀ i ∈ w :: ws, i < values.length := by
    rw [← hscan]
    exact winners_bound values contribs
  have hpos : ∀ i ∈ w :: ws, 0 < contribs.getD i 0 := by
    rw [← hscan]
    exact sdScan_pos contribs (-1) (sdEvaluated values)
  set cap := (ws.map (fun i => contribs.getD i 0)).foldl min (contribs.getD w 0) with hcap
  set subpot := (contribs.map (fun c => min c cap)).sum with hsubpot
  set n : Int := ((w :: ws).length : Int) with hn
  set share := subpot.fdiv n with hshare
  set rem := subpot.fmod n with hrem
  set chips1 := (w :: ws).foldl (fun acc j => acc.set j (acc.getD j 0 + share)) chips
    with hchips1
  set chips2 := if rem ≠ 0 then chips1.set w (chips1.getD w 0 + rem) else chips1 with hchips2
  have hcaple : ∀ i ∈ w :: ws, cap ≤ contribs.getD i 0 := by
    intro i hi
    rcases List.mem_cons.1 hi with rfl | hi'
    · exact foldl_min_le_init _ _
    · exact foldl_min_le_mem _ _ _ (List.mem_map.2 ⟨i, hi', rfl⟩)
  have hcapmem : ∃ i ∈ w :: ws, cap = contribs.getD i 0 := by
    have : ∀ (l : List Int) (a : Int), l.foldl min a = a ∨ l.foldl min a ∈ l := by
      intro l
      induction l with
      | nil => exact fun a => Or.inl rfl
      | cons x xs ih =>
        intro a
        rcases ih (min a x) with h | h
        · rcases le_or_lt a x with hax | hax
          · left
            simp only [List.foldl_cons, h]
            exact min_eq_left hax
          · right
            simp only [List.foldl_cons, h, List.mem_cons]
            left
            exact min_eq_right (le_of_lt hax)
        · right
          simp only [List.foldl_cons, List.mem_cons]
          exact Or.inr h
    rcases this (ws.map (fun i => contribs.getD i 0)) (contribs.getD w 0) with h | h
    · exact ⟨w, by simp, h⟩
    · obtain ⟨i, hi, hieq⟩ := List.mem_map.1 h
      exact ⟨i, by simp [hi], hieq.symm⟩
  have hcap1 : 1 ≤ cap := by
    apply le_foldl_min
    · exact hpos w (by simp)
    · intro x hx
      obtain ⟨i, hi, rfl⟩ := List.mem_map.1 hx
      exact hpos i (by simp [hi])
  have hwlen : w < contribs.length := by
    rw [hlc]
    exact hbound w (by simp)
  have hsub_ge : cap ≤ subpot := by
    have hmapped : (contribs.map (fun c => min c cap)).getD w 0 = cap := by
      rw [getD_map_int _ _ _ hwlen]
      exact min_eq_right (hcaple w (by simp))
    have hnnmap : ∀ c ∈ contribs.map (fun c => min c cap), 0 ≤ c := by
      intro c hc
      obtain ⟨c0, hc0, rfl⟩ := List.mem_map.1 hc
      exact le_min (hnn c0 hc0) (le_trans (by norm_num) hcap1)
    calc cap = (contribs.map (fun c => min c cap)).getD w 0 := hmapped.symm
      _ ≤ subpot := getD_le_sum_of_nonneg _ w hnnmap
  have hbound' : ∀ i ∈ w :: ws, i < chips.length := by
    intro i hi
    rw [hlch]
    exact hbound i hi
  have hlen1 : chips1.length = chips.length := length_foldl_set _ _ _
  have hlen2 : chips2.length = chips.length := by
    rw [hchips2]
    by_cases hr : rem ≠ 0
    · rw [if_pos hr]
      simp [hlen1]
    · rw [if_neg hr]
      exact hlen1
  have hsum1 : chips1.sum = chips.sum + ((w :: ws).length : Int) * share :=
    sum_foldl_set _ _ _ hbound'
  have hsum2 : chips2.sum = chips.sum + subpot := by
    rw [hchips2]
    by_cases hr : rem ≠ 0
    · rw [if_pos hr, sum_set_add _ _ _ (by rw [hlen1]; exact hbound' w (by simp)), hsum1]
      have := Int.fdiv_add_fmod subpot n
      rw [hshare, hrem, hn] at *
      omega
    · rw [if_neg hr, hsum1]
      have := Int.fdiv_add_fmod subpot n
      have hr0 : rem = 0 := by omega
      rw [hshare, hn] at *
      rw [hrem] at hr0
      omega
  have hgetw1 : chips1.getD w 0 = chips.getD w 0 + share :=
    getD_foldl_set_mem _ _ _ _ hnd (by simp) (hbound' w (by simp))
  have hgetw2 : chips2.getD w 0 = chips.getD w 0 + share + rem := by
    rw [hchips2]
    by_cases hr : rem ≠ 0
    · rw [if_pos hr, getD_set_self_int _ _ _ (by rw [hlen1]; exact hbound' w (by simp)), hgetw1]
    · rw [if_neg hr]
      have hr0 : rem = 0 := by omega
      rw [hgetw1, hr0]
      ring
  have hgetws : ∀ i ∈ ws, chips2.getD i 0 = chips.getD i 0 + share := by
    intro i hi
    have hwi : w ≠ i := fun hwi => (List.nodup_cons.1 hnd).1 (hwi ▸ hi)
    have h1 : chips1.getD i 0 = chips.getD i 0 + share :=
      getD_foldl_set_mem _ _ _ _ hnd (by simp [hi]) (hbound' i (by simp [hi]))
    rw [hchips2]
    by_cases hr : rem ≠ 0
    · rw [if_pos hr, getD_set_ne_int _ _ _ _ hwi, h1]
    · rw [if_neg hr, h1]
  have hgetother : ∀ i, i ∉ w :: ws → chips2.getD i 0 = chips.getD i 0 := by
    intro i hi
    have h1 : chips1.getD i 0 = chips.getD i 0 := getD_foldl_set_not_mem _ _ _ _ hi
    have hwi : w ≠ i := fun hwi => hi (by simp [hwi])
    rw [hchips2]
    by_cases hr : rem ≠ 0
    · rw [if_pos hr, getD_set_ne_int _ _ _ _ hwi, h1]
    · rw [if_neg hr, h1]
  refine ⟨cap, chips2, ?_, hcaple, hcapmem, hcap1, hsub_ge, hlen2, hsum2, hgetw2, hgetws,
    hgetother⟩
  simp only [sdStep, hscan]

/-- The side-pot loop distributes the whole pot: with the pot equal to the
outstanding contributions and every contributing seat holding an
evaluated hand, it terminates with pot 0, contributions cleared, and
every chip credited to the players. -/
theorem sdLoop_spec (values : List (Option Nat)) :
    ∀ (fuel : Nat) (contribs chips : List Int) (pot : Int),
      contribs.length = values.length →
      chips.length = values.length →
      (∀ c ∈ contribs, 0 ≤ c) →
      pot = contribs.sum →
      (∀ i, 0 < contribs.getD i 0 → values.getD i none ≠ none) →
      pot.toNat < fuel →
      (sdLoop (sdEvaluated values) fuel contribs chips pot).2.2 = 0 ∧
      (sdLoop (sdEvaluated values) fuel contribs chips pot).2.1.sum = chips.sum + pot := by
  intro fuel
  induction fuel with
  | zero => intro _ _ _ _ _ _ _ _ hf; omega
  | succ fuel ih =>
    intro contribs chips pot hlc hlch hnn hpot hhand _
    by_cases hp : pot > 0
    · have hsumpos : 0 < contribs.sum := by omega
      obtain ⟨j, hj, hjpos⟩ := exists_pos_getD contribs hsumpos
      have hjv : values.getD j none ≠ none := hhand j hjpos
      obtain ⟨v, hv⟩ : ∃ v, values.getD j none = some v := by
        cases hjv' : values.getD j none with
        | none => exact absurd hjv' hjv
        | some v => exact ⟨v, rfl⟩
      have hjlt : j < values.length := by omega
      have hmemT : (j, v) ∈ sdTableEntries values 0 := by
        have := sdTableEntries_mem_of_getD values 0 j v hjlt hv
        simpa using this
      have hmemS : (j, v) ∈ sdEvaluated values :=
        (sortEvDesc_perm _).mem_iff.2 hmemT
      have helig : sdEligB contribs (j, v) = true := by
        simp [sdEligB, List.getD] at hjpos ⊢
        simpa [List.getD] using hjpos
      have hfind : ∃ p0, (sdEvaluated values).find? (sdEligB contribs) = some p0 := by
        have : ((sdEvaluated values).find? (sdEligB contribs)).isSome = true :=
          List.find?_isSome.2 ⟨(j, v), hmemS, helig⟩
        cases hf : (sdEvaluated values).find? (sdEligB contribs) with
        | none => rw [hf] at this; simp at this
        | some p0 => exact ⟨p0, rfl⟩
      obtain ⟨p0, hp0⟩ := hfind
      have hscan_ne : sdScan contribs (-1) (sdEvaluated values) ≠ [] := by
        rw [sdScan_start, hp0]
        dsimp only
        intro hemp
        rw [List.map_eq_nil_iff, List.filter_eq_nil_iff] at hemp
        have hp0m := List.mem_of_find?_eq_some hp0
        have hp0e := List.find?_some hp0
        have := hemp p0 hp0m
        simp [hp0e] at this
      obtain ⟨w, ws, hscan⟩ : ∃ w ws, sdScan contribs (-1) (sdEvaluated values) = w :: ws := by
        cases hs : sdScan contribs (-1) (sdEvaluated values) with
        | nil => exact absurd hs hscan_ne
        | cons w ws => exact ⟨w, ws, rfl⟩
      obtain ⟨cap, chips', hstep, hcaple, hcapmem, hcap1, hsubge, hlen2, hsum2, _, _, _⟩ :=
        sdStep_spec values contribs chips pot w ws hscan hlc hlch hnn
      set subpot := (contribs.map (fun c => min c cap)).sum with hsubpot
      have hsubnn : ∀ c ∈ contribs.map (fun c => min c cap), 0 ≤ c := by
        intro c hc
        obtain ⟨c0, hc0, rfl⟩ := List.mem_map.1 hc
        exact le_min (hnn c0 hc0) (by omega)
      simp only [sdLoop, if_pos hp, hstep]
      have hlc' : (contribs.map (fun c => c - min c cap)).length = values.length := by
        simpa using hlc
      have hlch' : chips'.length = values.length := by rw [hlen2, hlch]
      have hnn' : ∀ c ∈ contribs.map (fun c => c - min c cap), 0 ≤ c := by
        intro c hc
        obtain ⟨c0, hc0, rfl⟩ := List.mem_map.1 hc
        have := hnn c0 hc0
        simp only [sub_nonneg]
        exact min_le_left c0 cap
      have hpot' : pot - subpot = (contribs.map (fun c => c - min c cap)).sum := by
        rw [sum_map_min_sub, hpot]
      have hhand' : ∀ i, 0 < (contribs.map (fun c => c - min c cap)).getD i 0 →
          values.getD i none ≠ none := by
        intro i hi
        by_cases hil : i < contribs.length
        · rw [getD_map_int _ _ _ hil] at hi
          apply hhand i
          omega
        · rw [getD_eq_zero_of_ge] at hi
          · omega
          · simpa using hil
      have hfuel' : (pot - subpot).toNat < fuel := by
        have hsubnn' : 0 ≤ subpot := List.sum_nonneg hsubnn
        omega
      obtain ⟨r1, r2⟩ := ih (contribs.map (fun c => c - min c cap)) chips' (pot - subpot)
        hlc' hlch' hnn' hpot' hhand' hfuel'
      refine ⟨r1, ?_⟩
      rw [r2, hsum2]
      ring
    · have hz : pot = 0 := by
        have : 0 ≤ contribs.sum := List.sum_nonneg hnn
        omega
      simp only [sdLoop, if_neg hp]
      exact ⟨hz, by rw [hz]; ring⟩

/-! ### Claim C4 -/

/-- Claim C4: in each showdown side-pot layer the winners are, in stable
value-descending order (equivalently: table order among the tied best),
the eligible seats of maximal hand value; the layer cap is the least
remaining contribution among those winners; the layer sub-pot sweeps
`min(remaining contribution, cap)` from every seat (winners, losers and
folded alike); it is split by integer floor division with the whole
remainder paid to the first winner; and over the whole loop the chips
credited equal the pot exactly whenever every seat with positive
remaining contribution has a recorded hand. -/
theorem C4_showdown_layers_and_conservation (values : List (Option Nat))
    (contribs chips : List Int)
    (hlc : contribs.length = values.length)
    (hlch : chips.length = values.length)
    (hnn : ∀ c ∈ contribs, 0 ≤ c)
    (hhand : ∀ i, 0 < contribs.getD i 0 → values.getD i none ≠ none) :
    (sdScan contribs (-1) (sdEvaluated values) =
      ((sdTableEntries values 0).filter (fun p => sdEligB contribs p &&
          decide (∀ q ∈ (sdTableEntries values 0).filter (sdEligB contribs),
            q.2 ≤ p.2))).map (fun p => p.1)) ∧
    (∀ (pot : Int) (w : Nat) (ws : List Nat),
      sdScan contribs (-1) (sdEvaluated values) = w :: ws →
      ∃ cap chips',
        sdStep (sdEvaluated values) contribs chips pot =
          some (contribs.map (fun c => c - min c cap), chips',
            pot - (contribs.map (fun c => min c cap)).sum) ∧
        (∀ i ∈ w :: ws, cap ≤ contribs.getD i 0) ∧
        (∃ i ∈ w :: ws, cap = contribs.getD i 0) ∧
        chips'.sum = chips.sum + (contribs.map (fun c => min c cap)).sum ∧
        chips'.getD w 0 = chips.getD w 0 +
          ((contribs.map (fun c => min c cap)).sum).fdiv ((w :: ws).length : Int) +
          ((contribs.map (fun c => min c cap)).sum).fmod ((w :: ws).length : Int) ∧
        (∀ i ∈ ws, chips'.getD i 0 = chips.getD i 0 +
          ((contribs.map (fun c => min c cap)).sum).fdiv ((w :: ws).length : Int)) ∧
        (∀ i, i ∉ w :: ws → chips'.getD i 0 = chips.getD i 0)) ∧
    ((showdown values contribs chips contribs.sum).2.2 = 0 ∧
      (showdown values contribs chips contribs.sum).2.1.sum = chips.sum + contribs.sum) := by
  refine ⟨sdScan_eq_max_filter values contribs, ?_, ?_⟩
  · intro pot w ws hscan
    obtain ⟨cap, chips', hstep, hcaple, hcapmem, _, _, _, hsum2, hgetw, hgetws, hother⟩ :=
      sdStep_spec values contribs chips pot w ws hscan hlc hlch hnn
    exact ⟨cap, chips', hstep, hcaple, hcapmem, hsum2, hgetw, hgetws, hother⟩
  · exact sdLoop_spec values (contribs.sum.toNat + 1) contribs chips contribs.sum
      hlc hlch hnn rfl hhand (by omega)

/-- Witness for C4 at the specification's side-pot example: seats
contribute 100, 100, 300, the all-in middle seat holds the best hand,
wins the 300-chip main layer, and the 200-chip side layer goes to the
remaining seat — the whole 500-chip pot is distributed. -/
theorem C4_witness :
    ((showdown [some 10, some 20, some 5] [100, 100, 300] [0, 0, 0]
        (([100, 100, 300] : List Int).sum)).2.2 = 0 ∧
      (showdown [some 10, some 20, some 5] [100, 100, 300] [0, 0, 0]
        (([100, 100, 300] : List Int).sum)).2.1.sum =
        ([0, 0, 0] : List Int).sum + (([100, 100, 300] : List Int).sum)) ∧
    showdown [some 10, some 20, some 5] [100, 100, 300] [0, 0, 0] 500 =
      ([0, 0, 0], [0, 300, 200], 0) := by
  constructor
  · exact (C4_showdown_layers_and_conservation [some 10, some 20, some 5]
      [100, 100, 300] [0, 0, 0] (by decide) (by decide) (by decide)
      (by
        intro i hi
        match i with
        | 0 => simp
        | 1 => simp
        | 2 => simp
        | (n + 3) =>
          rw [getD_eq_zero_of_ge _ _ (by simp)] at hi
          omega)).2.2
  · rfl

/-! ### Betting-loop step anatomy -/

theorem bstep_ret_game (agent : Agent) (st : BetSt) (b : Bool) (g' : Game)
    (h : bstep agent st = .ret b g') : g' = (bact agent st).1 := by
  simp only [bstep] at h
  rcases hba : bact agent st with ⟨g1, rmb, lr⟩
  rw [hba] at h
  split_ifs at h <;> cases h <;> simp [hba]

theorem bstep_cont_game (agent : Agent) (st : BetSt) (st' : BetSt)
    (h : bstep agent st = .cont st') :
    st'.g = (bact agent st).1 ∧
    st'.round_max_bet = (bact agent st).2.1 ∧
    st'.last_raiser = (bact agent st).2.2 ∧
    st'.current_idx = (st.current_idx + 1) % st.g.players.length ∧
    st'.start_idx = st.start_idx := by
  simp only [bstep] at h
  rcases hba : bact agent st with ⟨g1, rmb, lr⟩
  rw [hba] at h
  split_ifs at h <;> cases h <;> simp [hba]

/-! ### Claim C6: pot and contribution ledger -/

theorem sum_map_set_of_get? {α : Type} (l : List α) (i : Nat) (p x : α) (f : α → Int)
    (h : l.get? i = some p) :
    ((l.set i x).map f).sum = (l.map f).sum - f p + f x := by
  induction l generalizing i with
  | nil => simp at h
  | cons a rest ih =>
    cases i with
    | zero =>
      simp only [List.get?] at h
      cases h
      simp only [List.set, List.map_cons, List.sum_cons]
      ring
    | succ j =>
      simp only [List.get?] at h
      simp only [List.set, List.map_cons, List.sum_cons, ih j h]
      ring

theorem pay_anatomy (p : Player) (amount : Int) :
    (p.pay amount).2 = min amount p.chips ∧
    (p.pay amount).1.chips = p.chips - (p.pay amount).2 ∧
    (p.pay amount).1.current_bet = p.current_bet + (p.pay amount).2 ∧
    (p.pay amount).1.round_bet = p.round_bet := by
  simp [Player.pay]

theorem payAt_ledger (g : Game) (i : Nat) (amount : Int) :
    (g.payAt i amount).1.pot = g.pot ∧
    ((g.payAt i amount).1.players.map (fun p => p.current_bet)).sum =
      (g.players.map (fun p => p.current_bet)).sum + (g.payAt i amount).2 ∧
    ((g.payAt i amount).1.players.map (fun p => p.chips)).sum =
      (g.players.map (fun p => p.chips)).sum - (g.payAt i amount).2 := by
  simp only [Game.payAt]
  cases hg : g.players.get? i with
  | none => simp
  | some p =>
    rcases hpay : p.pay amount with ⟨p', a⟩
    simp only [hpay]
    have h1 := sum_map_set_of_get? g.players i p p' (fun q => q.current_bet) hg
    have h2 := sum_map_set_of_get? g.players i p p' (fun q => q.chips) hg
    have hp := pay_anatomy p amount
    rw [hpay] at hp
    simp only at hp
    obtain ⟨ha, hc, hcb, _⟩ := hp
    simp only [h1, h2, hcb, hc]
    exact ⟨trivial, by ring, by ring⟩

theorem map_field_sum_current_bet (l : List Player) (e : Player → Int) :
    ((l.map (fun p => { p with round_bet := e p })).map (fun p => p.current_bet)) =
      l.map (fun p => p.current_bet) := by
  rw [List.map_map]
  rfl

theorem map_field_sum_chips (l : List Player) (e : Player → Int) :
    ((l.map (fun p => { p with round_bet := e p })).map (fun p => p.chips)) =
      l.map (fun p => p.chips) := by
  rw [List.map_map]
  rfl

/-- Ledger preservation for the `pay`-and-store pattern of the betting
loop: seat `i` moves `a` from its stack to its contribution, the pot
grows by `a`. -/
theorem ledger_set_pay (T : Int) (g : Game) (i : Nat) (q x : Player) (a : Int)
    (hg : g.players.get? i = some q)
    (hxc : x.chips = q.chips - a) (hxb : x.current_bet = q.current_bet + a)
    (hinv : ledgerInv T g) :
    ledgerInv T { g with players := g.players.set i x, pot := g.pot + a } := by
  obtain ⟨h1, h2⟩ := hinv
  have e1 := sum_map_set_of_get? g.players i q x (fun r => r.current_bet) hg
  have e2 := sum_map_set_of_get? g.players i q x (fun r => r.chips) hg
  constructor
  · simp only [e1, hxb]
    rw [h1]
    ring
  · simp only [e2, hxc]
    have : ((g.players.map (fun p => p.chips)).sum - q.chips + (q.chips - a)) +
        (g.pot + a) = (g.players.map (fun p => p.chips)).sum + g.pot := by ring
    rw [this, h2]
/-- Ledger preservation for an in-place update that keeps both the stack
and the contribution of seat `i` (a status change). -/
theorem ledger_set_keep (T : Int) (g : Game) (i : Nat) (q x : Player)
    (hg : g.players.get? i = some q)
    (hxc : x.chips = q.chips) (hxb : x.current_bet = q.current_bet)
    (hinv : ledgerInv T g) :
    ledgerInv T { g with players := g.players.set i x } := by
  obtain ⟨h1, h2⟩ := hinv
  have e1 := sum_map_set_of_get? g.players i q x (fun r => r.current_bet) hg
  have e2 := sum_map_set_of_get? g.players i q x (fun r => r.chips) hg
  constructor
  · simp only [e1, hxb]
    rw [h1]
    ring
  · simp only [e2, hxc]
    have heq : ((g.players.map (fun p => p.chips)).sum - q.chips + q.chips) + g.pot =
        (g.players.map (fun p => p.chips)).sum + g.pot := by ring
    rw [heq, h2]

/-- Ledger preservation across the action phase of one betting-loop
iteration. -/
theorem bact_ledger (T : Int) (agent : Agent) (st : BetSt) (hinv : ledgerInv T st.g) :
    ledgerInv T (bact agent st).1 := by
  simp only [bact]
  set p := (st.g.players.get? st.current_idx).getD dummyPlayer with hp
  by_cases hact : p.status = .active
  · rw [if_pos hact]
    cases hg : st.g.players.get? st.current_idx with
    | none =>
      exfalso
      rw [hg] at hp
      rw [hp] at hact
      simp [dummyPlayer] at hact
    | some q =>
      have hpq : p = q := by rw [hp, hg]; rfl
      rcases hag : agent st (valid_actions_of p (st.round_max_bet - p.round_bet))
        with ⟨action, amount⟩
      dsimp only
      by_cases hf : action = "fold"
      · rw [if_pos hf]
        exact ledger_set_keep T st.g st.current_idx q { p with status := .folded } hg
          (by rw [hpq]) (by rw [hpq]) hinv
      · rw [if_neg hf]
        by_cases hc : action = "call" ∨ action = "check"
        · rw [if_pos hc]
          rcases hpay : p.pay (st.round_max_bet - p.round_bet) with ⟨p', a⟩
          simp only [hpay]
          have hanat := pay_anatomy p (st.round_max_bet - p.round_bet)
          rw [hpay] at hanat
          simp only at hanat
          obtain ⟨_, hchips, hcb, hrb⟩ := hanat
          exact ledger_set_pay T st.g st.current_idx q
            { p' with round_bet := p'.round_bet + a } a hg
            (by simp only [hchips, hpq]) (by simp only [hcb, hpq]) hinv
        · rw [if_neg hc]
          by_cases hr : action = "raise"
          · rw [if_pos hr]
            rcases hpay : p.pay (max amount (st.round_max_bet + st.g.big_blind) - p.round_bet)
              with ⟨p', a⟩
            simp only [hpay]
            have hanat := pay_anatomy p (max amount (st.round_max_bet + st.g.big_blind) -
              p.round_bet)
            rw [hpay] at hanat
            simp only at hanat
            obtain ⟨_, hchips, hcb, hrb⟩ := hanat
            exact ledger_set_pay T st.g st.current_idx q
              { p' with round_bet := p'.round_bet + a } a hg
              (by simp only [hchips, hpq]) (by simp only [hcb, hpq]) hinv
          · rw [if_neg hr]
            exact hinv
  · rw [if_neg hact]
    exact hinv

/-- Ledger preservation across the whole betting loop. -/
theorem bloop_ledger (T : Int) (agent : Agent) :
    ∀ (fuel : Nat) (st : BetSt) (b : Bool) (g' : Game), ledgerInv T st.g →
      bloop agent fuel st = some (b, g') → ledgerInv T g' := by
  intro fuel
  induction fuel with
  | zero => intro st b g' _ h; simp [bloop] at h
  | succ fuel ih =>
    intro st b g' hinv h
    simp only [bloop] at h
    cases hs : bstep agent st with
    | ret b0 g0 =>
      rw [hs] at h
      have hg0 : g' = g0 := (congrArg Prod.snd (Option.some.inj h)).symm
      rw [hg0, bstep_ret_game agent st b0 g0 hs]
      exact bact_ledger T agent st hinv
    | cont st' =>
      rw [hs] at h
      refine ih st' b g' ?_ h
      rw [(bstep_cont_game agent st st' hs).1]
      exact bact_ledger T agent st hinv

/-- The round-bet reset at the top of `betting_round` leaves the ledger
untouched. -/
theorem betting_round_init_ledger (T : Int) (g : Game) (hinv : ledgerInv T g) :
    ledgerInv T (betting_round_init g).1 := by
  obtain ⟨h1, h2⟩ := hinv
  simp only [betting_round_init]
  by_cases hc : g.current_bet > 0 ∧ g.board_empty = true
  · rw [if_pos hc]
    exact ⟨by rw [map_field_sum_current_bet]; exact h1,
      by rw [map_field_sum_chips]; exact h2⟩
  · rw [if_neg hc]
    exact ⟨by rw [map_field_sum_current_bet]; exact h1,
      by rw [map_field_sum_chips]; exact h2⟩

/-- `start_round` establishes the ledger invariant: the pot holds exactly
the posted blinds, which are exactly the summed `current_bet` entries and
exactly the chips taken from the stacks. -/
theorem start_round_ledger (g : Game) (sb_pos bb_pos : Nat) :
    ledgerInv ((g.players.map (fun p => p.chips)).sum) (start_round g sb_pos bb_pos) := by
  simp only [start_round]
  set g0 : Game :=
    { g with
        pot := 0, current_bet := 0, board_empty := true,
        players := g.players.map (fun p =>
          { p with
              status := if p.chips > 0 then .active else .busted,
              current_bet := 0 }) } with hg0
  have hinv0 : ledgerInv ((g.players.map (fun p => p.chips)).sum) g0 := by
    constructor
    · show (0 : Int) = ((g.players.map _).map (fun r : Player => r.current_bet)).sum
      rw [List.map_map]
      show (0 : Int) = (g.players.map (fun _ => (0 : Int))).sum
      induction g.players with
      | nil => simp
      | cons q rest ih => simpa using ih
    · show ((g.players.map _).map (fun r : Player => r.chips)).sum + (0 : Int) = _
      rw [List.map_map]
      show (g.players.map (fun r : Player => r.chips)).sum + (0 : Int) = _
      ring
  rcases hp1 : g0.payAt (sb_pos % g0.players.length) g0.small_blind with ⟨g1, sb_amount⟩
  rcases hp2 : g1.payAt (bb_pos % g0.players.length) g0.big_blind with ⟨g2, bb_amount⟩
  have e1 := payAt_ledger g0 (sb_pos % g0.players.length) g0.small_blind
  rw [hp1] at e1
  simp only at e1
  have e2 := payAt_ledger g1 (bb_pos % g0.players.length) g0.big_blind
  rw [hp2] at e2
  simp only at e2
  obtain ⟨f1, f2, f3⟩ := e1
  obtain ⟨f4, f5, f6⟩ := e2
  obtain ⟨i1, i2⟩ := hinv0
  constructor
  · show g2.pot + (sb_amount + bb_amount) = (g2.players.map (fun p => p.current_bet)).sum
    rw [f5, f2, ← i1, f4, f1]
    ring
  · show (g2.players.map (fun p => p.chips)).sum + (g2.pot + (sb_amount + bb_amount)) = _
    rw [f6, f3, f4, f1]
    have heq : (g0.players.map (fun p => p.chips)).sum - sb_amount - bb_amount +
        (g0.pot + (sb_amount + bb_amount)) =
        (g0.players.map (fun p => p.chips)).sum + g0.pot := by ring
    rw [heq, i2]

/-- Claim C6: from the blind posting in `start_round` through every action
of every betting round, the pot equals the summed round contributions
(`current_bet`), which equal the total chips the stacks have given up
since round start; `Player.pay` moves each amount between stack and
ledger coherently. -/
theorem C6_pot_equals_contributions (T : Int) :
    (∀ (p : Player) (amount : Int),
      (p.pay amount).2 = min amount p.chips ∧
      (p.pay amount).1.chips = p.chips - (p.pay amount).2 ∧
      (p.pay amount).1.current_bet = p.current_bet + (p.pay amount).2) ∧
    (∀ (g : Game) (sb_pos bb_pos : Nat),
      ledgerInv ((g.players.map (fun p => p.chips)).sum) (start_round g sb_pos bb_pos)) ∧
    (∀ (g : Game), ledgerInv T g → ledgerInv T (betting_round_init g).1) ∧
    (∀ (agent : Agent) (st : BetSt), ledgerInv T st.g →
      (∀ st', bstep agent st = .cont st' → ledgerInv T st'.g) ∧
      (∀ b g', bstep agent st = .ret b g' → ledgerInv T g')) ∧
    (∀ (agent : Agent) (g : Game) (start_idx fuel : Nat) (b : Bool) (g' : Game),
      ledgerInv T g → betting_round agent g start_idx fuel = some (b, g') →
      ledgerInv T g') := by
  refine ⟨?_, ?_, ?_, ?_, ?_⟩
  · intro p amount
    exact ⟨(pay_anatomy p amount).1, (pay_anatomy p amount).2.1, (pay_anatomy p amount).2.2.1⟩
  · exact start_round_ledger
  · exact betting_round_init_ledger T
  · intro agent st hinv
    constructor
    · intro st' hs
      rw [(bstep_cont_game agent st st' hs).1]
      exact bact_ledger T agent st hinv
    · intro b g' hs
      rw [bstep_ret_game agent st b g' hs]
      exact bact_ledger T agent st hinv
  · intro agent g start_idx fuel b g' hinv hrun
    simp only [betting_round] at hrun
    rcases hinit : betting_round_init g with ⟨g1, rmb⟩
    rw [hinit] at hrun
    have hinv1 : ledgerInv T g1 := by
      have h := betting_round_init_ledger T g hinv
      rw [hinit] at h
      exact h
    simp only at hrun
    by_cases he : activeCount g1 < 2 ∧ (rmb == 0) = true
    · rw [if_pos he] at hrun
      cases hrun
      exact hinv1
    · rw [if_neg he] at hrun
      exact bloop_ledger T agent fuel _ b g' hinv1 hrun

/-- Concrete check for C6: a two-seat postflop round of checks, run to its
`break`, keeps the ledger invariant established at a 200-chip table. -/
theorem C6_witness :
    betting_round (fun _ _ => ("check", 0))
        { players := [{ chips := 100 }, { chips := 100 }], board_empty := false } 0 2 =
      some (true, { players := [{ chips := 100 }, { chips := 100 }], board_empty := false }) ∧
    ledgerInv 200 { players := [{ chips := 100 }, { chips := 100 }], board_empty := false } :=
  ⟨by decide,
   (C6_pot_equals_contributions 200).2.2.2.2 (fun _ _ => ("check", 0))
     { players := [{ chips := 100 }, { chips := 100 }], board_empty := false } 0 2 true
     { players := [{ chips := 100 }, { chips := 100 }], board_empty := false }
     ⟨by decide, by decide⟩ (by decide)⟩

theorem cdist_lt (n stop next : Nat) (hs : stop < n) : cdist n stop next < n := by
  unfold cdist
  split_ifs <;> omega

theorem cdist_succ_lt (n stop next : Nat) (hs : stop < n) (hx : next < n)
    (hne : next ≠ stop) :
    cdist n stop ((next + 1) % n) < cdist n stop next := by
  rcases Nat.lt_or_ge (next + 1) n with h | h
  · rw [Nat.mod_eq_of_lt h]
    unfold cdist
    split_ifs <;> omega
  · have hn : next + 1 = n := by omega
    rw [hn, Nat.mod_self]
    unfold cdist
    split_ifs <;> omega

theorem succ_mod_cancel (n c b : Nat) (hc : c < n) (h : (c + 1) % n = (b + 1) % n) :
    c = b % n := by
  rcases Nat.lt_or_ge 1 n with h2 | h2
  · have hb : (b + 1) % n = (b % n + 1) % n := by
      conv_lhs => rw [Nat.add_mod]
      rw [Nat.mod_eq_of_lt h2]
    rw [hb] at h
    have hbn : b % n < n := Nat.mod_lt _ (by omega)
    rcases Nat.lt_or_ge (c + 1) n with h3 | h3 <;>
      rcases Nat.lt_or_ge (b % n + 1) n with h4 | h4
    · rw [Nat.mod_eq_of_lt h3, Nat.mod_eq_of_lt h4] at h
      omega
    · rw [Nat.mod_eq_of_lt h3] at h
      have hbe : b % n + 1 = n := by omega
      rw [hbe, Nat.mod_self] at h
      omega
    · have hce : c + 1 = n := by omega
      rw [hce, Nat.mod_self, Nat.mod_eq_of_lt h4] at h
      omega
    · omega
  · have hn1 : n = 1 := by omega
    subst hn1
    omega

theorem stopIdx_lt_aux (lr : Int) (si n : Nat) (hsi : si < n)
    (hlr : lr = -1 ∨ (0 ≤ lr ∧ lr < (n : Int))) :
    (if 0 ≤ lr then lr.toNat else si) < n := by
  rcases hlr with h | ⟨h1, h2⟩
  · rw [h, if_neg (by decide)]
    exact hsi
  · rw [if_pos h1]
    omega

theorem measure_gap_lt (gap gap' d d' n : Nat) (hg : gap' + 1 ≤ gap) (hd : d' < n) :
    gap' * n + d' < gap * n + d := by
  have h1 : (gap' + 1) * n ≤ gap * n := Nat.mul_le_mul_right n hg
  have h2 : (gap' + 1) * n = gap' * n + n := by ring
  linarith

theorem measure_active_lt (a a' gap gap' d d' G n : Nat)
    (ha : a' < a) (hg : gap' ≤ G) (hd : d' < n) :
    a' * ((G + 1) * n) + gap' * n + d' < a * ((G + 1) * n) + gap * n + d := by
  have h1 : gap' * n ≤ G * n := Nat.mul_le_mul_right n hg
  have h2 : (a' + 1) * ((G + 1) * n) ≤ a * ((G + 1) * n) := Nat.mul_le_mul_right _ ha
  have h3 : (a' + 1) * ((G + 1) * n) = a' * ((G + 1) * n) + (G * n + n) := by ring
  calc a' * ((G + 1) * n) + gap' * n + d'
      < a' * ((G + 1) * n) + (G * n + n) := by
        have : gap' * n + d' < G * n + n := by omega
        omega
    _ = (a' + 1) * ((G + 1) * n) := h3.symm
    _ ≤ a * ((G + 1) * n) := h2
    _ ≤ a * ((G + 1) * n) + gap * n + d := by omega

theorem length_filter_set {α : Type} (l : List α) (i : Nat) (q x : α) (pr : α → Bool)
    (h : l.get? i = some q) :
    ((l.set i x).filter pr).length + (if pr q = true then 1 else 0) =
      (l.filter pr).length + (if pr x = true then 1 else 0) := by
  induction l generalizing i with
  | nil => simp at h
  | cons a t ih =>
    cases i with
    | zero =>
      simp only [List.get?] at h
      have heq : a = q := Option.some.inj h
      subst heq
      simp only [List.set, List.filter_cons]
      by_cases h1 : pr a = true
      · simp only [if_pos h1]
        by_cases h2 : pr x = true
        · simp only [if_pos h2, List.length_cons]
        · simp only [if_neg h2, List.length_cons]
      · simp only [if_neg h1]
        by_cases h2 : pr x = true
        · simp only [if_pos h2, List.length_cons]
        · simp only [if_neg h2]
    | succ j =>
      simp only [List.get?] at h
      have hj := ih j h
      simp only [List.set, List.filter_cons]
      by_cases hq : pr q = true
      · rw [if_pos hq] at hj ⊢
        by_cases hx : pr x = true
        · rw [if_pos hx] at hj ⊢
          split_ifs <;> (try simp only [List.length_cons]) <;> omega
        · rw [if_neg hx] at hj ⊢
          split_ifs <;> (try simp only [List.length_cons]) <;> omega
      · rw [if_neg hq] at hj ⊢
        by_cases hx : pr x = true
        · rw [if_pos hx] at hj ⊢
          split_ifs <;> (try simp only [List.length_cons]) <;> omega
        · rw [if_neg hx] at hj ⊢
          split_ifs <;> (try simp only [List.length_cons]) <;> omega

theorem pay_status (p : Player) (amount : Int) :
    ((p.pay amount).1.chips = 0 ∧ (p.pay amount).1.status = .allin) ∨
    ((p.pay amount).1.chips ≠ 0 ∧ (p.pay amount).1.status = p.status) := by
  simp only [Player.pay]
  by_cases h : p.chips - min amount p.chips = 0
  · left
    constructor <;> simp [h]
  · right
    constructor <;> simp [h]

theorem raise_mem_valid (p : Player) (ca : Int)
    (h : "raise" ∈ valid_actions_of p ca) : ca < p.chips := by
  simp only [valid_actions_of, List.mem_append] at h
  rcases h with (h | h) | h
  · simp at h
  · by_cases hc : (ca == 0) = true <;> simp [hc] at h
  · by_cases hc : p.chips > ca
    · exact hc
    · rw [if_neg hc] at h
      simp at h

/-- `bact` when the seat to act is not active: nothing changes. -/
theorem bact_eq_inactive (agent : Agent) (st : BetSt)
    (h : ¬((st.g.players.get? st.current_idx).getD dummyPlayer).status = .active) :
    bact agent st = (st.g, st.round_max_bet, st.last_raiser) := by
  simp only [bact]
  rw [if_neg h]

/-- `bact` on a fold: the seat is marked folded, nothing else changes. -/
theorem bact_eq_fold (agent : Agent) (st : BetSt) (q : Player)
    (hg : st.g.players.get? st.current_idx = some q) (hqa : q.status = .active)
    (hag : (agent st (valid_actions_of q (st.round_max_bet - q.round_bet))).1 = "fold") :
    bact agent st =
      ({ st.g with players := st.g.players.set st.current_idx { q with status := .folded } },
       st.round_max_bet, st.last_raiser) := by
  simp only [bact, hg, Option.getD_some]
  rw [if_pos hqa, if_pos hag]

/-- `bact` on a call or check: the seat pays up to the outstanding call
amount, the payment is appended to its round bet and to the pot. -/
theorem bact_eq_call (agent : Agent) (st : BetSt) (q : Player)
    (hg : st.g.players.get? st.current_idx = some q) (hqa : q.status = .active)
    (hnf : ¬(agent st (valid_actions_of q (st.round_max_bet - q.round_bet))).1 = "fold")
    (hag : (agent st (valid_actions_of q (st.round_max_bet - q.round_bet))).1 = "call" ∨
      (agent st (valid_actions_of q (st.round_max_bet - q.round_bet))).1 = "check") :
    bact agent st =
      ({ st.g with
          players := st.g.players.set st.current_idx
            { chips := (q.pay (st.round_max_bet - q.round_bet)).1.chips,
              current_bet := (q.pay (st.round_max_bet - q.round_bet)).1.current_bet,
              round_bet := (q.pay (st.round_max_bet - q.round_bet)).1.round_bet +
                  (q.pay (st.round_max_bet - q.round_bet)).2,
              status := (q.pay (st.round_max_bet - q.round_bet)).1.status },
          pot := st.g.pot + (q.pay (st.round_max_bet - q.round_bet)).2 },
       st.round_max_bet, st.last_raiser) := by
  simp only [bact, hg, Option.getD_some]
  rw [if_pos hqa, if_neg hnf, if_pos hag]

/-- `bact` on a raise: the target is clamped from below by a minimum
raise of one big blind over the running maximum, the seat pays up to it,
the running maximum becomes the seat's new round bet and the seat becomes
the raiser. -/
theorem bact_eq_raise (agent : Agent) (st : BetSt) (q : Player)
    (hg : st.g.players.get? st.current_idx = some q) (hqa : q.status = .active)
    (hnf : ¬(agent st (valid_actions_of q (st.round_max_bet - q.round_bet))).1 = "fold")
    (hnc : ¬((agent st (valid_actions_of q (st.round_max_bet - q.round_bet))).1 = "call" ∨
      (agent st (valid_actions_of q (st.round_max_bet - q.round_bet))).1 = "check"))
    (hag : (agent st (valid_actions_of q (st.round_max_bet - q.round_bet))).1 = "raise") :
    bact agent st =
      ({ st.g with
          players := st.g.players.set st.current_idx
            { chips := (q.pay (max (agent st (valid_actions_of q
                    (st.round_max_bet - q.round_bet))).2
                  (st.round_max_bet + st.g.big_blind) - q.round_bet)).1.chips,
              current_bet := (q.pay (max (agent st (valid_actions_of q
                    (st.round_max_bet - q.round_bet))).2
                  (st.round_max_bet + st.g.big_blind) - q.round_bet)).1.current_bet,
              round_bet := (q.pay (max (agent st (valid_actions_of q
                    (st.round_max_bet - q.round_bet))).2
                  (st.round_max_bet + st.g.big_blind) - q.round_bet)).1.round_bet +
                  (q.pay (max (agent st (valid_actions_of q
                    (st.round_max_bet - q.round_bet))).2
                  (st.round_max_bet + st.g.big_blind) - q.round_bet)).2,
              status := (q.pay (max (agent st (valid_actions_of q
                    (st.round_max_bet - q.round_bet))).2
                  (st.round_max_bet + st.g.big_blind) - q.round_bet)).1.status },
          pot := st.g.pot + (q.pay (max (agent st (valid_actions_of q
              (st.round_max_bet - q.round_bet))).2
            (st.round_max_bet + st.g.big_blind) - q.round_bet)).2 },
       (q.pay (max (agent st (valid_actions_of q (st.round_max_bet - q.round_bet))).2
          (st.round_max_bet + st.g.big_blind) - q.round_bet)).1.round_bet +
        (q.pay (max (agent st (valid_actions_of q (st.round_max_bet - q.round_bet))).2
          (st.round_max_bet + st.g.big_blind) - q.round_bet)).2,
       (st.current_idx : Int)) := by
  simp only [bact, hg, Option.getD_some]
  rw [if_pos hqa, if_neg hnf, if_neg hnc, if_pos hag]

/-- `bact` on an unrecognised action string: nothing changes. -/
theorem bact_eq_other (agent : Agent) (st : BetSt) (q : Player)
    (hg : st.g.players.get? st.current_idx = some q) (hqa : q.status = .active)
    (hnf : ¬(agent st (valid_actions_of q (st.round_max_bet - q.round_bet))).1 = "fold")
    (hnc : ¬((agent st (valid_actions_of q (st.round_max_bet - q.round_bet))).1 = "call" ∨
      (agent st (valid_actions_of q (st.round_max_bet - q.round_bet))).1 = "check"))
    (hnr : ¬(agent st (valid_actions_of q (st.round_max_bet - q.round_bet))).1 = "raise") :
    bact agent st = (st.g, st.round_max_bet, st.last_raiser) := by
  simp only [bact, hg, Option.getD_some]
  rw [if_pos hqa, if_neg hnf, if_neg hnc, if_neg hnr]

/-- Full anatomy of one action of the betting loop: the table size and the
round-level fields are untouched; `round_max_bet` never decreases and stays
bounded; `last_raiser` is kept or set to the acting seat; every seat keeps a
non-negative stack, `round_bet + chips` stays bounded by `M`, and active
seats stay behind the maximum with at least one chip; and the step either
retires an active seat (fold or all-in), changes nothing structural, or is a
full raise consuming at least one big blind of headroom. -/
theorem bact_master (M : Int) (agent : Agent) (hleg : LegalAgent agent) (st : BetSt)
    (hinv : BetInv M st) :
    (bact agent st).1.players.length = st.g.players.length ∧
    (bact agent st).1.current_bet = st.g.current_bet ∧
    (bact agent st).1.board_empty = st.g.board_empty ∧
    (bact agent st).1.dealer_pos = st.g.dealer_pos ∧
    (bact agent st).1.big_blind = st.g.big_blind ∧
    st.round_max_bet ≤ (bact agent st).2.1 ∧
    (bact agent st).2.1 ≤ M + st.g.big_blind ∧
    ((bact agent st).2.2 = st.last_raiser ∨ (bact agent st).2.2 = (st.current_idx : Int)) ∧
    (∀ p ∈ (bact agent st).1.players, 0 ≤ p.chips ∧ p.round_bet + p.chips ≤ M ∧
      (p.status = .active → p.round_bet ≤ (bact agent st).2.1 ∧ 1 ≤ p.chips)) ∧
    (activeCount (bact agent st).1 < activeCount st.g ∨
      (activeCount (bact agent st).1 = activeCount st.g ∧
        (bact agent st).2.1 = st.round_max_bet ∧ (bact agent st).2.2 = st.last_raiser) ∨
      (activeCount (bact agent st).1 = activeCount st.g ∧
        st.round_max_bet + st.g.big_blind ≤ (bact agent st).2.1)) := by
  obtain ⟨hn, hci, hsi, hlrb, hrmb0, hrmbM, hbb, hps⟩ := hinv
  by_cases hact : ((st.g.players.get? st.current_idx).getD dummyPlayer).status = .active
  · cases hg : st.g.players.get? st.current_idx with
    | none =>
      exfalso
      rw [hg] at hact
      simp [dummyPlayer] at hact
    | some q =>
      have hqa : q.status = .active := by rw [hg] at hact; exact hact
      have hqmem : q ∈ st.g.players := List.get?_mem hg
      obtain ⟨hq0, hqM, hqact⟩ := hps q hqmem
      obtain ⟨hqrb, hq1⟩ := hqact hqa
      have hqd : decide (q.status = PStatus.active) = true := decide_eq_true hqa
      by_cases hf :
          (agent st (valid_actions_of q (st.round_max_bet - q.round_bet))).1 = "fold"
      · rw [bact_eq_fold agent st q hg hqa hf]
        have hcnt := length_filter_set st.g.players st.current_idx q
          { q with status := .folded } (fun r => decide (r.status = PStatus.active)) hg
        rw [if_pos hqd, if_neg (by simp)] at hcnt
        refine ⟨by simp, rfl, rfl, rfl, rfl, le_refl _, hrmbM, Or.inl rfl, ?_, ?_⟩
        · intro pp hpp
          rcases List.mem_or_eq_of_mem_set hpp with hmem | hx
          · exact hps pp hmem
          · subst hx
            refine ⟨hq0, hqM, ?_⟩
            intro hst
            simp at hst
        · left
          simp only [activeCount]
          omega
      · by_cases hc :
            (agent st (valid_actions_of q (st.round_max_bet - q.round_bet))).1 = "call" ∨
            (agent st (valid_actions_of q (st.round_max_bet - q.round_bet))).1 = "check"
        · rw [bact_eq_call agent st q hg hqa hf hc]
          obtain ⟨ha, hchips, hcb, hrb⟩ := pay_anatomy q (st.round_max_bet - q.round_bet)
          have hstat := pay_status q (st.round_max_bet - q.round_bet)
          have hAca : (q.pay (st.round_max_bet - q.round_bet)).2 ≤
              st.round_max_bet - q.round_bet := by
            rw [ha]; exact min_le_left _ _
          have hAch : (q.pay (st.round_max_bet - q.round_bet)).2 ≤ q.chips := by
            rw [ha]; exact min_le_right _ _
          refine ⟨by simp, rfl, rfl, rfl, rfl, le_refl _, hrmbM, Or.inl rfl, ?_, ?_⟩
          · intro pp hpp
            rcases List.mem_or_eq_of_mem_set hpp with hmem | hx
            · exact hps pp hmem
            · subst hx
              refine ⟨?_, ?_, ?_⟩
              · show 0 ≤ (q.pay (st.round_max_bet - q.round_bet)).1.chips
                rw [hchips]
                omega
              · show (q.pay (st.round_max_bet - q.round_bet)).1.round_bet +
                    (q.pay (st.round_max_bet - q.round_bet)).2 +
                    (q.pay (st.round_max_bet - q.round_bet)).1.chips ≤ M
                rw [hrb, hchips]
                omega
              · intro hst
                have hst' : (q.pay (st.round_max_bet - q.round_bet)).1.status =
                    .active := hst
                rcases hstat with ⟨hz, hallin⟩ | ⟨hnz, hsame⟩
                · rw [hallin] at hst'
                  simp at hst'
                · constructor
                  · show (q.pay (st.round_max_bet - q.round_bet)).1.round_bet +
                        (q.pay (st.round_max_bet - q.round_bet)).2 ≤ st.round_max_bet
                    rw [hrb]
                    omega
                  · show 1 ≤ (q.pay (st.round_max_bet - q.round_bet)).1.chips
                    rw [hchips] at hnz ⊢
                    omega
          · have hcnt := length_filter_set st.g.players st.current_idx q
              { chips := (q.pay (st.round_max_bet - q.round_bet)).1.chips,
                  current_bet := (q.pay (st.round_max_bet - q.round_bet)).1.current_bet,
                  round_bet := (q.pay (st.round_max_bet - q.round_bet)).1.round_bet +
                    (q.pay (st.round_max_bet - q.round_bet)).2,
                  status := (q.pay (st.round_max_bet - q.round_bet)).1.status }
              (fun r => decide (r.status = PStatus.active)) hg
            rw [if_pos hqd] at hcnt
            rcases hstat with ⟨hz, hallin⟩ | ⟨hnz, hsame⟩
            · left
              rw [if_neg (by simp [hallin])] at hcnt
              simp only [activeCount]
              omega
            · right
              left
              refine ⟨?_, rfl, rfl⟩
              have hxa : ({ chips := (q.pay (st.round_max_bet - q.round_bet)).1.chips,
                            current_bet :=
                              (q.pay (st.round_max_bet - q.round_bet)).1.current_bet,
                            round_bet := (q.pay (st.round_max_bet - q.round_bet)).1.round_bet +
                              (q.pay (st.round_max_bet - q.round_bet)).2,
                            status := (q.pay (st.round_max_bet - q.round_bet)).1.status } :
                  Player).status = PStatus.active := by
                show (q.pay (st.round_max_bet - q.round_bet)).1.status = PStatus.active
                rw [hsame]
                exact hqa
              rw [if_pos (decide_eq_true hxa)] at hcnt
              simp only [activeCount]
              omega
        · by_cases hr :
              (agent st (valid_actions_of q (st.round_max_bet - q.round_bet))).1 = "raise"
          · rw [bact_eq_raise agent st q hg hqa hf hc hr]
            obtain ⟨ha, hchips, hcb, hrb⟩ := pay_anatomy q
              (max (agent st (valid_actions_of q (st.round_max_bet - q.round_bet))).2
                (st.round_max_bet + st.g.big_blind) - q.round_bet)
            have hstat := pay_status q
              (max (agent st (valid_actions_of q (st.round_max_bet - q.round_bet))).2
                (st.round_max_bet + st.g.big_blind) - q.round_bet)
            have hmem := hleg st q (st.round_max_bet - q.round_bet)
            rw [hr] at hmem
            have hca : st.round_max_bet - q.round_bet < q.chips := raise_mem_valid q _ hmem
            have hmx : st.round_max_bet + st.g.big_blind ≤
                max (agent st (valid_actions_of q (st.round_max_bet - q.round_bet))).2
                  (st.round_max_bet + st.g.big_blind) := le_max_right _ _
            have hAch : (q.pay (max (agent st (valid_actions_of q
                (st.round_max_bet - q.round_bet))).2
                (st.round_max_bet + st.g.big_blind) - q.round_bet)).2 ≤ q.chips := by
              rw [ha]; exact min_le_right _ _
            have hA1 : 1 ≤ (q.pay (max (agent st (valid_actions_of q
                (st.round_max_bet - q.round_bet))).2
                (st.round_max_bet + st.g.big_blind) - q.round_bet)).2 := by
              rw [ha]
              exact le_min (by omega) hq1
            have hrmb1 : st.round_max_bet + 1 ≤
                (q.pay (max (agent st (valid_actions_of q
                  (st.round_max_bet - q.round_bet))).2
                  (st.round_max_bet + st.g.big_blind) - q.round_bet)).1.round_bet +
                (q.pay (max (agent st (valid_actions_of q
                  (st.round_max_bet - q.round_bet))).2
                  (st.round_max_bet + st.g.big_blind) - q.round_bet)).2 := by
              rw [hrb, ha]
              rcases min_choice (max (agent st (valid_actions_of q
                  (st.round_max_bet - q.round_bet))).2
                  (st.round_max_bet + st.g.big_blind) - q.round_bet) q.chips with hm | hm <;>
                rw [hm] <;> omega
            have hrmbM' :
                (q.pay (max (agent st (valid_actions_of q
                  (st.round_max_bet - q.round_bet))).2
                  (st.round_max_bet + st.g.big_blind) - q.round_bet)).1.round_bet +
                (q.pay (max (agent st (valid_actions_of q
                  (st.round_max_bet - q.round_bet))).2
                  (st.round_max_bet + st.g.big_blind) - q.round_bet)).2 ≤
                M + st.g.big_blind := by
              rw [hrb]
              omega
            refine ⟨by simp, rfl, rfl, rfl, rfl, ?_, hrmbM', Or.inr rfl, ?_, ?_⟩
            · show st.round_max_bet ≤
                  (q.pay (max (agent st (valid_actions_of q
                    (st.round_max_bet - q.round_bet))).2
                    (st.round_max_bet + st.g.big_blind) - q.round_bet)).1.round_bet +
                  (q.pay (max (agent st (valid_actions_of q
                    (st.round_max_bet - q.round_bet))).2
                    (st.round_max_bet + st.g.big_blind) - q.round_bet)).2
              omega
            · intro pp hpp
              rcases List.mem_or_eq_of_mem_set hpp with hmem2 | hx
              · obtain ⟨h1, h2, h3⟩ := hps pp hmem2
                refine ⟨h1, h2, ?_⟩
                intro hst
                obtain ⟨h4, h5⟩ := h3 hst
                refine ⟨?_, h5⟩
                show pp.round_bet ≤
                    (q.pay (max (agent st (valid_actions_of q
                      (st.round_max_bet - q.round_bet))).2
                      (st.round_max_bet + st.g.big_blind) - q.round_bet)).1.round_bet +
                    (q.pay (max (agent st (valid_actions_of q
                      (st.round_max_bet - q.round_bet))).2
                      (st.round_max_bet + st.g.big_blind) - q.round_bet)).2
                omega
              · subst hx
                refine ⟨?_, ?_, ?_⟩
                · show 0 ≤ (q.pay (max (agent st (valid_actions_of q
                      (st.round_max_bet - q.round_bet))).2
                      (st.round_max_bet + st.g.big_blind) - q.round_bet)).1.chips
                  rw [hchips]
                  omega
                · show (q.pay (max (agent st (valid_actions_of q
                      (st.round_max_bet - q.round_bet))).2
                      (st.round_max_bet + st.g.big_blind) - q.round_bet)).1.round_bet +
                      (q.pay (max (agent st (valid_actions_of q
                      (st.round_max_bet - q.round_bet))).2
                      (st.round_max_bet + st.g.big_blind) - q.round_bet)).2 +
                      (q.pay (max (agent st (valid_actions_of q
                      (st.round_max_bet - q.round_bet))).2
                      (st.round_max_bet + st.g.big_blind) - q.round_bet)).1.chips ≤ M
                  rw [hrb, hchips]
                  omega
                · intro hst
                  have hst' : (q.pay (max (agent st (valid_actions_of q
                      (st.round_max_bet - q.round_bet))).2
                      (st.round_max_bet + st.g.big_blind) - q.round_bet)).1.status =
                      .active := hst
                  rcases hstat with ⟨hz, hallin⟩ | ⟨hnz, hsame⟩
                  · rw [hallin] at hst'
                    simp at hst'
                  · refine ⟨le_refl _, ?_⟩
                    show 1 ≤ (q.pay (max (agent st (valid_actions_of q
                        (st.round_max_bet - q.round_bet))).2
                        (st.round_max_bet + st.g.big_blind) - q.round_bet)).1.chips
                    rw [hchips] at hnz ⊢
                    omega
            · have hcnt := length_filter_set st.g.players st.current_idx q
                { chips := (q.pay (max (agent st (valid_actions_of q
                      (st.round_max_bet - q.round_bet))).2
                      (st.round_max_bet + st.g.big_blind) - q.round_bet)).1.chips,
                  current_bet := (q.pay (max (agent st (valid_actions_of q
                      (st.round_max_bet - q.round_bet))).2
                      (st.round_max_bet + st.g.big_blind) - q.round_bet)).1.current_bet,
                  round_bet := (q.pay (max (agent st (valid_actions_of q
                      (st.round_max_bet - q.round_bet))).2
                      (st.round_max_bet + st.g.big_blind) - q.round_bet)).1.round_bet +
                      (q.pay (max (agent st (valid_actions_of q
                      (st.round_max_bet - q.round_bet))).2
                      (st.round_max_bet + st.g.big_blind) - q.round_bet)).2,
                  status := (q.pay (max (agent st (valid_actions_of q
                      (st.round_max_bet - q.round_bet))).2
                      (st.round_max_bet + st.g.big_blind) - q.round_bet)).1.status }
                (fun r => decide (r.status = PStatus.active)) hg
              rw [if_pos hqd] at hcnt
              rcases hstat with ⟨hz, hallin⟩ | ⟨hnz, hsame⟩
              · left
                rw [if_neg (by simp [hallin])] at hcnt
                simp only [activeCount]
                omega
              · right
                right
                constructor
                · have hxa : ({ chips := (q.pay (max (agent st (valid_actions_of q
                                  (st.round_max_bet - q.round_bet))).2
                                  (st.round_max_bet + st.g.big_blind) - q.round_bet)).1.chips,
                                current_bet := (q.pay (max (agent st (valid_actions_of q
                                  (st.round_max_bet - q.round_bet))).2
                                  (st.round_max_bet + st.g.big_blind) -
                                  q.round_bet)).1.current_bet,
                                round_bet := (q.pay (max (agent st (valid_actions_of q
                                  (st.round_max_bet - q.round_bet))).2
                                  (st.round_max_bet + st.g.big_blind) -
                                  q.round_bet)).1.round_bet +
                                  (q.pay (max (agent st (valid_actions_of q
                                  (st.round_max_bet - q.round_bet))).2
                                  (st.round_max_bet + st.g.big_blind) - q.round_bet)).2,
                                status := (q.pay (max (agent st (valid_actions_of q
                                  (st.round_max_bet - q.round_bet))).2
                                  (st.round_max_bet + st.g.big_blind) -
                                  q.round_bet)).1.status } :
                      Player).status = PStatus.active := by
                    show (q.pay (max (agent st (valid_actions_of q
                        (st.round_max_bet - q.round_bet))).2
                        (st.round_max_bet + st.g.big_blind) - q.round_bet)).1.status =
                        PStatus.active
                    rw [hsame]
                    exact hqa
                  rw [if_pos (decide_eq_true hxa)] at hcnt
                  simp only [activeCount]
                  omega
                · have hane : (q.pay (max (agent st (valid_actions_of q
                      (st.round_max_bet - q.round_bet))).2
                      (st.round_max_bet + st.g.big_blind) - q.round_bet)).2 ≠ q.chips := by
                    intro habs
                    rw [habs] at hchips
                    exact hnz (by rw [hchips]; ring)
                  have hfull : (q.pay (max (agent st (valid_actions_of q
                      (st.round_max_bet - q.round_bet))).2
                      (st.round_max_bet + st.g.big_blind) - q.round_bet)).2 =
                      max (agent st (valid_actions_of q
                        (st.round_max_bet - q.round_bet))).2
                        (st.round_max_bet + st.g.big_blind) - q.round_bet := by
                    rcases min_choice (max (agent st (valid_actions_of q
                        (st.round_max_bet - q.round_bet))).2
                        (st.round_max_bet + st.g.big_blind) - q.round_bet) q.chips
                      with hm | hm
                    · rw [ha, hm]
                    · exact absurd (by rw [ha, hm]) hane
                  show st.round_max_bet + st.g.big_blind ≤
                      (q.pay (max (agent st (valid_actions_of q
                        (st.round_max_bet - q.round_bet))).2
                        (st.round_max_bet + st.g.big_blind) - q.round_bet)).1.round_bet +
                      (q.pay (max (agent st (valid_actions_of q
                        (st.round_max_bet - q.round_bet))).2
                        (st.round_max_bet + st.g.big_blind) - q.round_bet)).2
                  rw [hrb, hfull]
                  omega
          · rw [bact_eq_other agent st q hg hqa hf hc hr]
            exact ⟨rfl, rfl, rfl, rfl, rfl, le_refl _, hrmbM, Or.inl rfl, hps,
              Or.inr (Or.inl ⟨rfl, rfl, rfl⟩)⟩
  · rw [bact_eq_inactive agent st hact]
    exact ⟨rfl, rfl, rfl, rfl, rfl, le_refl _, hrmbM, Or.inl rfl, hps,
      Or.inr (Or.inl ⟨rfl, rfl, rfl⟩)⟩

/-- The loop-exit guards that must have failed for `bstep` to continue:
the next seat is not the raiser, and a continue across `start_idx` can
only be the preflop big-blind-option case. -/
theorem bstep_cont_guards (agent : Agent) (st : BetSt) (st' : BetSt)
    (h : bstep agent st = .cont st') :
    ¬(((st.current_idx + 1) % st.g.players.length : Nat) : Int) = (bact agent st).2.2 ∧
    ((bact agent st).2.2 = -1 ∧
        (st.current_idx + 1) % st.g.players.length = st.start_idx →
      ((bact agent st).1.current_bet > 0 ∧ (bact agent st).1.board_empty = true) ∧
      ¬st.current_idx = ((bact agent st).1.dealer_pos + 2) % st.g.players.length) := by
  simp only [bstep] at h
  rcases hba : bact agent st with ⟨g1, rmb, lr⟩
  rw [hba] at h
  simp only [hba]
  split_ifs at h with h1 h2 h3 h4 h5 h6
  · constructor
    · intro habs
      rw [beq_iff_eq] at h3
      exact h3 habs
    · intro hpre
      refine ⟨h5, ?_⟩
      intro habs
      exact h6 (by rw [beq_iff_eq]; exact habs)
  · constructor
    · intro habs
      rw [beq_iff_eq] at h3
      exact h3 habs
    · intro hpre
      exact absurd ⟨by rw [beq_iff_eq]; exact hpre.1, by rw [beq_iff_eq]; exact hpre.2⟩ h4

/-- One continuing iteration of the betting loop preserves the invariant
and the preflop entry-seat fact, and strictly decreases the measure. -/
theorem bstep_cont_inv (M : Int) (agent : Agent) (hleg : LegalAgent agent)
    (st st' : BetSt) (hinv : BetInv M st) (hpre : PreHyp st)
    (h : bstep agent st = .cont st') :
    BetInv M st' ∧ PreHyp st' ∧ bmeasure M st' < bmeasure M st := by
  obtain ⟨hlen, hcur, hboard, hdeal, hbig, hrmble, hrmbMM, hlr', hps', hdec⟩ :=
    bact_master M agent hleg st hinv
  obtain ⟨hcg, hcrmb, hclr, hcci, hcsi⟩ := bstep_cont_game agent st st' h
  obtain ⟨hg1, hg2⟩ := bstep_cont_guards agent st st' h
  obtain ⟨hn, hci, hsi, hlrb, hrmb0, hrmbM, hbb, hps⟩ := hinv
  have hlen' : st'.g.players.length = st.g.players.length := by rw [hcg, hlen]
  have hbig' : st'.g.big_blind = st.g.big_blind := by rw [hcg, hbig]
  have hlr2 : (bact agent st).2.2 = -1 ∨
      (0 ≤ (bact agent st).2.2 ∧
        (bact agent st).2.2 < (st.g.players.length : Int)) := by
    rcases hlr' with he | he
    · rw [he]; exact hlrb
    · rw [he]
      exact Or.inr ⟨Int.natCast_nonneg _, by exact_mod_cast hci⟩
  have hstop : stopIdx st < st.g.players.length :=
    stopIdx_lt_aux st.last_raiser st.start_idx st.g.players.length hsi hlrb
  have hstop' : (if 0 ≤ (bact agent st).2.2 then (bact agent st).2.2.toNat
      else st.start_idx) < st.g.players.length :=
    stopIdx_lt_aux ((bact agent st).2.2) st.start_idx st.g.players.length hsi hlr2
  have hnext : (st.current_idx + 1) % st.g.players.length < st.g.players.length :=
    Nat.mod_lt _ hn
  have hrmb0' : 0 ≤ (bact agent st).2.1 := le_trans hrmb0 hrmble
  have hinv' : BetInv M st' := by
    refine ⟨?_, ?_, ?_, ?_, ?_, ?_, ?_, ?_⟩
    · rw [hlen']; exact hn
    · rw [hlen', hcci]; exact hnext
    · rw [hlen', hcsi]; exact hsi
    · rw [hclr, hlen']; exact hlr2
    · rw [hcrmb]; exact hrmb0'
    · rw [hcrmb, hbig']; exact hrmbMM
    · rw [hbig']; exact hbb
    · intro p hp
      rw [hcg] at hp
      rw [hcrmb]
      exact hps' p hp
  refine ⟨hinv', ?_, ?_⟩
  · intro hc
    rw [hcg, hcur, hboard] at hc
    rw [hcsi, hcg, hdeal, hlen]
    exact hpre hc
  · simp only [bmeasure, stopIdx, hcg, hcrmb, hclr, hcci, hcsi, hlen, hbig]
    rcases hdec with hlt | ⟨heq, hermb, helr⟩ | ⟨heq, hge⟩
    · exact measure_active_lt (activeCount st.g) (activeCount (bact agent st).1)
        ((M + st.g.big_blind - st.round_max_bet).toNat)
        ((M + st.g.big_blind - (bact agent st).2.1).toNat)
        (cdist st.g.players.length
          (if 0 ≤ st.last_raiser then st.last_raiser.toNat else st.start_idx)
          ((st.current_idx + 1) % st.g.players.length))
        (cdist st.g.players.length
          (if 0 ≤ (bact agent st).2.2 then (bact agent st).2.2.toNat else st.start_idx)
          (((st.current_idx + 1) % st.g.players.length + 1) % st.g.players.length))
        ((M + st.g.big_blind).toNat) st.g.players.length hlt (by omega)
        (cdist_lt _ _ _ hstop')
    · simp only [heq, hermb, helr]
      apply Nat.add_lt_add_left
      apply cdist_succ_lt _ _ _ hstop hnext
      by_cases hlr0 : st.last_raiser = -1
      · simp only [stopIdx]
        rw [hlr0, if_neg (by decide)]
        intro heq2
        obtain ⟨⟨hcb0, hbe⟩, hne6⟩ := hg2 ⟨by rw [helr, hlr0], heq2⟩
        rw [hcur] at hcb0
        rw [hboard] at hbe
        have hstart := hpre ⟨hcb0, hbe⟩
        rw [hdeal] at hne6
        apply hne6
        have hmodeq : (st.current_idx + 1) % st.g.players.length =
            ((st.g.dealer_pos + 2) + 1) % st.g.players.length := by
          rw [heq2, hstart]
        exact succ_mod_cancel st.g.players.length st.current_idx
          (st.g.dealer_pos + 2) hci hmodeq
      · rcases hlrb with he | ⟨hge0, hltn⟩
        · exact absurd he hlr0
        · simp only [stopIdx]
          rw [if_pos hge0]
          intro heq2
          apply hg1
          rw [helr, heq2]
          exact Int.toNat_of_nonneg hge0
    · simp only [heq]
      have hkey := measure_gap_lt ((M + st.g.big_blind - st.round_max_bet).toNat)
        ((M + st.g.big_blind - (bact agent st).2.1).toNat)
        (cdist st.g.players.length
          (if 0 ≤ st.last_raiser then st.last_raiser.toNat else st.start_idx)
          ((st.current_idx + 1) % st.g.players.length))
        (cdist st.g.players.length
          (if 0 ≤ (bact agent st).2.2 then (bact agent st).2.2.toNat else st.start_idx)
          (((st.current_idx + 1) % st.g.players.length + 1) % st.g.players.length))
        st.g.players.length (by omega) (cdist_lt _ _ _ hstop')
      linarith

/-- The initialisation of `betting_round` establishes the loop invariant
and the preflop entry-seat fact from the entry conditions. -/
theorem init_inv (M : Int) (g : Game) (start_idx : Nat) (h : StartHyp M g start_idx) :
    BetInv M (initSt g start_idx) ∧ PreHyp (initSt g start_idx) := by
  obtain ⟨hn, hsi, hbb, hM, hpre, hps⟩ := h
  simp only [initSt, betting_round_init]
  by_cases hc : g.current_bet > 0 ∧ g.board_empty = true
  · rw [if_pos hc]
    constructor
    · refine ⟨by simpa using hn, by simpa using hsi, by simpa using hsi,
        Or.inl rfl, ?_, ?_, hbb, ?_⟩
      · show (0 : Int) ≤ g.big_blind
        omega
      · show g.big_blind ≤ M + g.big_blind
        omega
      · intro p hp
        rcases List.mem_map.1 hp with ⟨p0, hp0, rfl⟩
        obtain ⟨h1, h2, h3, h4⟩ := hps p0 hp0
        obtain ⟨h5, h6⟩ := h4 hc
        refine ⟨h1, h5, ?_⟩
        intro hst
        exact ⟨h6 hst, h3 hst⟩
    · intro hcc
      show start_idx = (g.dealer_pos + 3) % (g.players.map _).length
      rw [List.length_map]
      exact hpre hcc
  · rw [if_neg hc]
    constructor
    · refine ⟨by simpa using hn, by simpa using hsi, by simpa using hsi,
        Or.inl rfl, le_refl 0, ?_, hbb, ?_⟩
      · show (0 : Int) ≤ M + g.big_blind
        omega
      · intro p hp
        rcases List.mem_map.1 hp with ⟨p0, hp0, rfl⟩
        obtain ⟨h1, h2, h3, h4⟩ := hps p0 hp0
        refine ⟨h1, ?_, ?_⟩
        · show (0 : Int) + p0.chips ≤ M
          omega
        · intro hst
          exact ⟨le_refl 0, h3 hst⟩
    · intro hcc
      show start_idx = (g.dealer_pos + 3) % (g.players.map _).length
      rw [List.length_map]
      exact hpre hcc

/-- With fuel above the measure, the betting loop reaches one of its
`return`/`break` statements. -/
theorem bloop_some (M : Int) (agent : Agent) (hleg : LegalAgent agent) :
    ∀ (fuel : Nat) (st : BetSt), BetInv M st → PreHyp st → bmeasure M st < fuel →
      ∃ r, bloop agent fuel st = some r := by
  intro fuel
  induction fuel with
  | zero => intro st _ _ hf; omega
  | succ fuel ih =>
    intro st hinv hpre hf
    cases hs : bstep agent st with
    | ret b g => exact ⟨(b, g), by simp [bloop, hs]⟩
    | cont st' =>
      obtain ⟨hinv', hpre', hlt⟩ := bstep_cont_inv M agent hleg st st' hinv hpre hs
      obtain ⟨r, hr⟩ := ih st' hinv' hpre' (by omega)
      exact ⟨r, by simp [bloop, hs, hr]⟩

/-- Claim C10: under the entry conditions (non-negative stacks bounded
with the posted bets by `M`, at least one seat, a big blind of at least
one chip, a legal decision provider, preflop entry at the seat after the
big blind), `betting_round` terminates: every raise pays a strictly
positive amount into the pot, stacks never go negative, every continuing
iteration strictly decreases the termination measure (whose last
component, the circular distance to the exit seat, is below the table
size: with no fold, all-in or raise the loop exits within one further
circuit), and the loop returns within the computed fuel. -/
theorem C10_betting_round_terminates (M : Int) (agent : Agent) (hleg : LegalAgent agent) :
    (∀ (st : BetSt) (q : Player), BetInv M st →
      st.g.players.get? st.current_idx = some q → q.status = .active →
      (agent st (valid_actions_of q (st.round_max_bet - q.round_bet))).1 = "raise" →
      st.g.pot + 1 ≤ (bact agent st).1.pot) ∧
    (∀ st : BetSt, BetInv M st → ∀ p ∈ (bact agent st).1.players, 0 ≤ p.chips) ∧
    (∀ st st' : BetSt, BetInv M st → PreHyp st → bstep agent st = .cont st' →
      BetInv M st' ∧ PreHyp st' ∧ bmeasure M st' < bmeasure M st) ∧
    (∀ (g : Game) (start_idx : Nat), StartHyp M g start_idx →
      betting_round agent g start_idx (betting_fuel M g start_idx) ≠ none) := by
  refine ⟨?_, ?_, ?_, ?_⟩
  · intro st q hinv hg hqa hr
    obtain ⟨hn, hci, hsi, hlrb, hrmb0, hrmbM, hbb, hps⟩ := hinv
    have hqmem : q ∈ st.g.players := List.get?_mem hg
    obtain ⟨hq0, hqM, hqact⟩ := hps q hqmem
    obtain ⟨hqrb, hq1⟩ := hqact hqa
    have hnf : ¬(agent st (valid_actions_of q (st.round_max_bet - q.round_bet))).1 =
        "fold" := by
      intro habs
      rw [hr] at habs
      exact absurd habs (by decide)
    have hnc : ¬((agent st (valid_actions_of q (st.round_max_bet - q.round_bet))).1 =
        "call" ∨
        (agent st (valid_actions_of q (st.round_max_bet - q.round_bet))).1 = "check") := by
      intro habs
      rcases habs with habs | habs <;> rw [hr] at habs <;> exact absurd habs (by decide)
    rw [bact_eq_raise agent st q hg hqa hnf hnc hr]
    show st.g.pot + 1 ≤ st.g.pot +
        (q.pay (max (agent st (valid_actions_of q (st.round_max_bet - q.round_bet))).2
          (st.round_max_bet + st.g.big_blind) - q.round_bet)).2
    have ha := (pay_anatomy q
      (max (agent st (valid_actions_of q (st.round_max_bet - q.round_bet))).2
        (st.round_max_bet + st.g.big_blind) - q.round_bet)).1
    have hmx : st.round_max_bet + st.g.big_blind ≤
        max (agent st (valid_actions_of q (st.round_max_bet - q.round_bet))).2
          (st.round_max_bet + st.g.big_blind) := le_max_right _ _
    have h1 : 1 ≤ (q.pay
        (max (agent st (valid_actions_of q (st.round_max_bet - q.round_bet))).2
          (st.round_max_bet + st.g.big_blind) - q.round_bet)).2 := by
      rw [ha]
      exact le_min (by omega) hq1
    omega
  · intro st hinv p hp
    exact ((bact_master M agent hleg st hinv).2.2.2.2.2.2.2.2.1 p hp).1
  · intro st st' hinv hpre hs
    exact bstep_cont_inv M agent hleg st st' hinv hpre hs
  · intro g start_idx hs
    obtain ⟨hinv0, hpre0⟩ := init_inv M g start_idx hs
    intro habs
    simp only [betting_round] at habs
    rcases hI : betting_round_init g with ⟨g1, rmb⟩
    rw [hI] at habs
    simp only at habs
    by_cases he : activeCount g1 < 2 ∧ (rmb == 0) = true
    · rw [if_pos he] at habs
      exact Option.noConfusion habs
    · rw [if_neg he] at habs
      obtain ⟨r, hr⟩ := bloop_some M agent hleg (betting_fuel M g start_idx)
        (initSt g start_idx) hinv0 hpre0 (Nat.lt_succ_self _)
      have hrec : initSt g start_idx =
          { g := g1, round_max_bet := rmb, last_raiser := -1,
            current_idx := start_idx, start_idx := start_idx } := by
        simp only [initSt, hI]
      rw [hrec] at hr
      rw [hr] at habs
      exact Option.noConfusion habs

/-- Concrete check for C10: the fold-first legal agent at a two-seat
100-chip table terminates within the computed fuel. -/
theorem C10_witness :
    LegalAgent (fun _ va => (va.headD "fold", 0)) ∧
    StartHyp 100 { players := [{ chips := 100 }, { chips := 100 }], board_empty := false } 0 ∧
    betting_round (fun _ va => (va.headD "fold", 0))
      { players := [{ chips := 100 }, { chips := 100 }], board_empty := false } 0
      (betting_fuel 100
        { players := [{ chips := 100 }, { chips := 100 }], board_empty := false } 0) ≠
      none := by
  have hleg : LegalAgent (fun _ va => (va.headD "fold", 0)) := by
    intro st p ca
    simp [valid_actions_of]
  have hsh : StartHyp 100
      { players := [{ chips := 100 }, { chips := 100 }], board_empty := false } 0 :=
    ⟨by decide, by decide, by decide, by decide, by decide, by decide⟩
  exact ⟨hleg, hsh,
    (C10_betting_round_terminates 100 (fun _ va => (va.headD "fold", 0)) hleg).2.2.2
      { players := [{ chips := 100 }, { chips := 100 }], board_empty := false } 0 hsh⟩
